/-
Verification of the rate-limit decision core.

Shallow embedding conventions:
- Go `int64` is modelled as `ℤ` (the claims under study never approach the
  64-bit range, so wrap-around is immaterial and not modelled).
- Go `float64` / Lua numbers are modelled as `ℚ` (exact arithmetic; the
  algorithms use only +, -, *, /, min, max, floor, ceil and comparisons,
  which agree with IEEE-754 on the magnitudes exercised here).
- Go's `%` on int64 truncates toward zero: `Int.tmod`.
  Lua's `%` is floored: `Int.emod` (they agree on nonnegative arguments).
- The in-memory backend's per-key record is an `Option` state (`none` =
  key absent); the Redis scripts' per-window counters are total maps
  `ℤ → ℤ` defaulting to 0 (INCRBY on a missing key starts from 0).
  TTL expiry is not modelled: within the call patterns the claims quantify
  over, every key read happens strictly before its pending expiry.
- Each remote operation includes the Go wrapper's defensive parameter
  guard followed by the Lua script body, evaluated atomically.
-/
import Mathlib

set_option maxHeartbeats 1000000
set_option maxRecDepth 100000

namespace RateLimiter

/-- The uniform decision record returned by every operation
(`backend.Result`); Go's zero value for missing optional fields is 0. -/
structure Result where
  allowed : Bool
  remaining : ℤ
  resetAtMs : ℤ
  retryAfterMs : ℤ
  currentCount : ℤ
  computedCount : ℤ
deriving Repr, DecidableEq

/-- Go's `Result{}` zero value, returned by the defensive guards. -/
def zeroResult : Result := ⟨false, 0, 0, 0, 0, 0⟩

/-- Record `tokenBucketState`: fractional token level plus last-refill stamp. -/
structure TokenBucketState where
  tokens : ℚ
  lastMs : ℤ
deriving Repr, DecidableEq

/-- Record `leakyBucketState`: water level plus last-leak stamp. -/
structure LeakyBucketState where
  water : ℚ
  lastMs : ℤ
deriving Repr, DecidableEq

/-- Record `fixedWindowState`: admitted weight and aligned window start. -/
structure FixedWindowState where
  count : ℤ
  windowStartMs : ℤ
deriving Repr, DecidableEq

/-- Record `slidingCounterState`: aligned window start, current and previous counts. -/
structure SlidingCounterState where
  windowStartMs : ℤ
  currentCount : ℤ
  prevCount : ℤ
deriving Repr, DecidableEq

/-- Model of `MemoryBackend.TokenBucketAllow`: one decision of the in-memory token
bucket, from the stored state (`none` when the key is absent) and the
clock snapshot `nowMs`.  Note: the Go code computes the refill from
`nowMs - lastMs` without clamping a backward clock. -/
def tokenBucketAllow (capacity : ℤ) (refillPerSec : ℚ) (cost : ℤ)
    (st : Option TokenBucketState) (nowMs : ℤ) : Result × Option TokenBucketState :=
  if capacity ≤ 0 ∨ refillPerSec ≤ 0 ∨ cost ≤ 0 then (zeroResult, st) else
  let s0 := st.getD ⟨(capacity : ℚ), nowMs⟩
  let elapsedMs : ℤ := nowMs - s0.lastMs
  let refill : ℚ := (elapsedMs : ℚ) / 1000 * refillPerSec
  let tokens1 : ℚ := min (capacity : ℚ) (s0.tokens + refill)
  let tokens2 : ℚ := if (cost : ℚ) ≤ tokens1 then tokens1 - (cost : ℚ) else tokens1
  let resetAtMs : ℤ := nowMs + ⌈((capacity : ℚ) - tokens2) / refillPerSec * 1000⌉
  let retryAfterMs : ℤ :=
    if (cost : ℚ) ≤ tokens1 then 0 else ⌈((cost : ℚ) - tokens2) / refillPerSec * 1000⌉
  (⟨decide ((cost : ℚ) ≤ tokens1), ⌊tokens2⌋, resetAtMs, retryAfterMs, 0, 0⟩,
   some ⟨tokens2, nowMs⟩)

/-- Model of `RedisBackend.TokenBucketAllow`: the Go guard plus the
`tokenBucketScript` Lua body.  Identical to the local arithmetic except
that a backward clock is clamped (`if now_ms < last_ms then last_ms = now_ms`). -/
def tokenBucketScript (capacity : ℤ) (refillPerSec : ℚ) (cost : ℤ)
    (st : Option TokenBucketState) (nowMs : ℤ) : Result × Option TokenBucketState :=
  if capacity ≤ 0 ∨ refillPerSec ≤ 0 ∨ cost ≤ 0 then (zeroResult, st) else
  let s0 := st.getD ⟨(capacity : ℚ), nowMs⟩
  let last0 : ℤ := if nowMs < s0.lastMs then nowMs else s0.lastMs
  let refill : ℚ := ((nowMs - last0 : ℤ) : ℚ) / 1000 * refillPerSec
  let tokens1 : ℚ := min (capacity : ℚ) (s0.tokens + refill)
  let tokens2 : ℚ := if (cost : ℚ) ≤ tokens1 then tokens1 - (cost : ℚ) else tokens1
  let resetAtMs : ℤ := nowMs + ⌈((capacity : ℚ) - tokens2) / refillPerSec * 1000⌉
  let retryAfterMs : ℤ :=
    if (cost : ℚ) ≤ tokens1 then 0 else ⌈((cost : ℚ) - tokens2) / refillPerSec * 1000⌉
  (⟨decide ((cost : ℚ) ≤ tokens1), ⌊tokens2⌋, resetAtMs, retryAfterMs, 0, 0⟩,
   some ⟨tokens2, nowMs⟩)

/-- Model of `MemoryBackend.LeakyBucketAllow`: one decision of the in-memory leaky
bucket.  As with the token bucket, no backward-clock clamp is applied. -/
def leakyBucketAllow (capacity : ℤ) (leakPerSec : ℚ) (cost : ℤ)
    (st : Option LeakyBucketState) (nowMs : ℤ) : Result × Option LeakyBucketState :=
  if capacity ≤ 0 ∨ leakPerSec ≤ 0 ∨ cost ≤ 0 then (zeroResult, st) else
  let s0 := st.getD ⟨0, nowMs⟩
  let elapsedMs : ℤ := nowMs - s0.lastMs
  let leak : ℚ := (elapsedMs : ℚ) / 1000 * leakPerSec
  let water1 : ℚ := max 0 (s0.water - leak)
  let water2 : ℚ := if water1 + (cost : ℚ) ≤ (capacity : ℚ) then water1 + (cost : ℚ) else water1
  let resetAtMs : ℤ := nowMs + ⌈water2 / leakPerSec * 1000⌉
  let retryAfterMs : ℤ :=
    if water1 + (cost : ℚ) ≤ (capacity : ℚ) then 0
    else ⌈(water2 + (cost : ℚ) - (capacity : ℚ)) / leakPerSec * 1000⌉
  (⟨decide (water1 + (cost : ℚ) ≤ (capacity : ℚ)),
    ⌊(capacity : ℚ) - water2⌋, resetAtMs, retryAfterMs, 0, 0⟩,
   some ⟨water2, nowMs⟩)

/-- Model of `RedisBackend.LeakyBucketAllow`: the Go guard plus the
`leakyBucketScript` Lua body, which clamps a backward clock. -/
def leakyBucketScript (capacity : ℤ) (leakPerSec : ℚ) (cost : ℤ)
    (st : Option LeakyBucketState) (nowMs : ℤ) : Result × Option LeakyBucketState :=
  if capacity ≤ 0 ∨ leakPerSec ≤ 0 ∨ cost ≤ 0 then (zeroResult, st) else
  let s0 := st.getD ⟨0, nowMs⟩
  let last0 : ℤ := if nowMs < s0.lastMs then nowMs else s0.lastMs
  let leak : ℚ := ((nowMs - last0 : ℤ) : ℚ) / 1000 * leakPerSec
  let water1 : ℚ := max 0 (s0.water - leak)
  let water2 : ℚ := if water1 + (cost : ℚ) ≤ (capacity : ℚ) then water1 + (cost : ℚ) else water1
  let resetAtMs : ℤ := nowMs + ⌈water2 / leakPerSec * 1000⌉
  let retryAfterMs : ℤ :=
    if water1 + (cost : ℚ) ≤ (capacity : ℚ) then 0
    else ⌈(water2 + (cost : ℚ) - (capacity : ℚ)) / leakPerSec * 1000⌉
  (⟨decide (water1 + (cost : ℚ) ≤ (capacity : ℚ)),
    ⌊(capacity : ℚ) - water2⌋, resetAtMs, retryAfterMs, 0, 0⟩,
   some ⟨water2, nowMs⟩)

/-- Model of `MemoryBackend.FixedWindowAllow`: epoch-aligned window with reset when
`nowMs - windowStartMs ≥ windowMs`; Go's `%` truncates toward zero. -/
def fixedWindowAllow (limit windowMs cost : ℤ)
    (st : Option FixedWindowState) (nowMs : ℤ) : Result × Option FixedWindowState :=
  if limit ≤ 0 ∨ windowMs ≤ 0 ∨ cost ≤ 0 then (zeroResult, st) else
  let s0 : FixedWindowState :=
    match st with
    | none => ⟨0, nowMs - Int.tmod nowMs windowMs⟩
    | some s => if windowMs ≤ nowMs - s.windowStartMs then ⟨0, nowMs - Int.tmod nowMs windowMs⟩ else s
  let count1 : ℤ := if s0.count + cost ≤ limit then s0.count + cost else s0.count
  let resetAtMs : ℤ := s0.windowStartMs + windowMs
  let retryAfterMs : ℤ := if s0.count + cost ≤ limit then 0 else resetAtMs - nowMs
  (⟨decide (s0.count + cost ≤ limit), limit - count1, resetAtMs, retryAfterMs, count1, 0⟩,
   some ⟨count1, s0.windowStartMs⟩)

/-- Model of `RedisBackend.FixedWindowAllow`: the Go guard plus `fixedWindowScript`.
The store maps an aligned window start to its counter (INCRBY from 0 on a
missing key); the counter is incremented unconditionally, and remaining is
`limit - count` with the incremented count.  Lua's `%` is floored. -/
def fixedWindowScript (limit windowMs cost : ℤ)
    (store : ℤ → ℤ) (nowMs : ℤ) : Result × (ℤ → ℤ) :=
  if limit ≤ 0 ∨ windowMs ≤ 0 ∨ cost ≤ 0 then (zeroResult, store) else
  let windowStart : ℤ := nowMs - nowMs % windowMs
  let count : ℤ := store windowStart + cost
  let store2 : ℤ → ℤ := fun k => if k = windowStart then count else store k
  let resetAtMs : ℤ := windowStart + windowMs
  let retryAfterMs : ℤ := if count ≤ limit then 0 else resetAtMs - nowMs
  (⟨decide (count ≤ limit), limit - count, resetAtMs, retryAfterMs, count, 0⟩, store2)

/-- Model of `MemoryBackend.SlidingWindowLogAllow`: prune timestamps `≤ cutoff`,
admit iff the kept length plus cost fits, appending `cost` copies of `nowMs`. -/
def slidingWindowLogAllow (limit windowMs cost : ℤ)
    (logs : List ℤ) (nowMs : ℤ) : Result × List ℤ :=
  if limit ≤ 0 ∨ windowMs ≤ 0 ∨ cost ≤ 0 then (zeroResult, logs) else
  let cutoff : ℤ := nowMs - windowMs
  let kept := logs.filter (fun ts => decide (cutoff < ts))
  let logs2 := if (kept.length : ℤ) + cost ≤ limit
    then kept ++ List.replicate cost.toNat nowMs else kept
  let resetAtMs : ℤ := logs2.head?.getD nowMs + windowMs
  let retryAfterMs : ℤ :=
    if (kept.length : ℤ) + cost ≤ limit then 0 else resetAtMs - nowMs
  (⟨decide ((kept.length : ℤ) + cost ≤ limit), limit - (logs2.length : ℤ),
    resetAtMs, retryAfterMs, (logs2.length : ℤ), 0⟩, logs2)

/-- Model of `RedisBackend.SlidingWindowLogAllow`: the Go guard plus `slidingLogScript`.
The sorted set is modelled as the list of member scores;
`ZREMRANGEBYSCORE key 0 cutoff` removes exactly the scores in `[0, cutoff]`,
and `ZRANGE key 0 0` yields a member of least score. -/
def slidingLogScript (limit windowMs cost : ℤ)
    (scores : List ℤ) (nowMs : ℤ) : Result × List ℤ :=
  if limit ≤ 0 ∨ windowMs ≤ 0 ∨ cost ≤ 0 then (zeroResult, scores) else
  let cutoff : ℤ := nowMs - windowMs
  let kept := scores.filter (fun ts => decide (¬ (0 ≤ ts ∧ ts ≤ cutoff)))
  let count1 : ℤ := if (kept.length : ℤ) + cost ≤ limit
    then (kept.length : ℤ) + cost else (kept.length : ℤ)
  let scores2 := if (kept.length : ℤ) + cost ≤ limit
    then kept ++ List.replicate cost.toNat nowMs else kept
  let resetAtMs : ℤ :=
    if 0 < count1 then (scores2.min?.getD nowMs) + windowMs else nowMs + windowMs
  let retryAfterMs : ℤ :=
    if (kept.length : ℤ) + cost ≤ limit then 0 else resetAtMs - nowMs
  (⟨decide ((kept.length : ℤ) + cost ≤ limit), limit - count1,
    resetAtMs, retryAfterMs, count1, 0⟩, scores2)

/-- Model of `MemoryBackend.SlidingWindowCounterAllow`: weighted two-window counter;
on rollover the previous count adopts the stored current count (whatever
window it came from).  Go's `int64(math.Max(0, x))` on the nonnegative
max is the floor. -/
def slidingWindowCounterAllow (limit windowMs cost : ℤ)
    (st : Option SlidingCounterState) (nowMs : ℤ) : Result × Option SlidingCounterState :=
  if limit ≤ 0 ∨ windowMs ≤ 0 ∨ cost ≤ 0 then (zeroResult, st) else
  let curStart : ℤ := nowMs - Int.tmod nowMs windowMs
  let s0 := st.getD ⟨curStart, 0, 0⟩
  let s1 : SlidingCounterState :=
    if s0.windowStartMs = curStart then s0 else ⟨curStart, 0, s0.currentCount⟩
  let elapsed : ℤ := nowMs - s1.windowStartMs
  let weight : ℚ := ((windowMs - elapsed : ℤ) : ℚ) / (windowMs : ℚ)
  let computed : ℚ := (s1.prevCount : ℚ) * weight + (s1.currentCount : ℚ)
  let cur2 : ℤ := if computed + (cost : ℚ) ≤ (limit : ℚ) then s1.currentCount + cost else s1.currentCount
  let computed2 : ℚ := if computed + (cost : ℚ) ≤ (limit : ℚ) then computed + (cost : ℚ) else computed
  let resetAtMs : ℤ := s1.windowStartMs + windowMs
  let retryAfterMs : ℤ := if computed + (cost : ℚ) ≤ (limit : ℚ) then 0 else resetAtMs - nowMs
  (⟨decide (computed + (cost : ℚ) ≤ (limit : ℚ)), ⌊max 0 ((limit : ℚ) - computed2)⌋,
    resetAtMs, retryAfterMs, cur2, ⌈computed2⌉⟩,
   some ⟨s1.windowStartMs, cur2, s1.prevCount⟩)

/-- Model of `RedisBackend.SlidingWindowCounterAllow`: the Go guard plus
`slidingCounterScript`.  Current and previous counts live in two
separately keyed counters; remaining is `floor(limit - computed)` with
no clamp at zero. -/
def slidingCounterScript (limit windowMs cost : ℤ)
    (store : ℤ → ℤ) (nowMs : ℤ) : Result × (ℤ → ℤ) :=
  if limit ≤ 0 ∨ windowMs ≤ 0 ∨ cost ≤ 0 then (zeroResult, store) else
  let curStart : ℤ := nowMs - nowMs % windowMs
  let prevStart : ℤ := curStart - windowMs
  let curCount : ℤ := store curStart
  let prevCount : ℤ := store prevStart
  let elapsed : ℤ := nowMs - curStart
  let weight : ℚ := ((windowMs - elapsed : ℤ) : ℚ) / (windowMs : ℚ)
  let computed : ℚ := (prevCount : ℚ) * weight + (curCount : ℚ)
  let cur2 : ℤ := if computed + (cost : ℚ) ≤ (limit : ℚ) then curCount + cost else curCount
  let store2 : ℤ → ℤ :=
    if computed + (cost : ℚ) ≤ (limit : ℚ)
    then fun k => if k = curStart then cur2 else store k
    else store
  let computed2 : ℚ := if computed + (cost : ℚ) ≤ (limit : ℚ) then computed + (cost : ℚ) else computed
  let resetAtMs : ℤ := curStart + windowMs
  let retryAfterMs : ℤ := if computed + (cost : ℚ) ≤ (limit : ℚ) then 0 else resetAtMs - nowMs
  (⟨decide (computed + (cost : ℚ) ≤ (limit : ℚ)), ⌊(limit : ℚ) - computed2⌋,
    resetAtMs, retryAfterMs, cur2, ⌈computed2⌉⟩, store2)

/-- Results of a single-client call sequence: each element of `nows` is the
clock snapshot of one decision call; parameters are fixed for the key. -/
def runResults {σ : Type} (step : σ → ℤ → Result × σ) : σ → List ℤ → List Result
  | _, [] => []
  | s, n :: ns => (step s n).1 :: runResults step (step s n).2 ns

/-- Stored state after each call of a single-client call sequence. -/
def runStates {σ : Type} (step : σ → ℤ → Result × σ) : σ → List ℤ → List σ
  | _, [] => []
  | s, n :: ns => (step s n).2 :: runStates step (step s n).2 ns

/-- Every emitted Result satisfies `P`, given a state predicate `R s n`
(`s` is acceptable when the next clock reading is at least `n`) that is
monotone in the bound and preserved by each step of a non-decreasing
clock sequence. -/
theorem runResults_forall {σ : Type} (step : σ → ℤ → Result × σ)
    (R : σ → ℤ → Prop) (P : Result → Prop)
    (hmono : ∀ s n n', R s n → n ≤ n' → R s n')
    (hstep : ∀ s n, R s n → P (step s n).1 ∧ R (step s n).2 n) :
    ∀ (s : σ) (n0 : ℤ) (nows : List ℤ), R s n0 → List.Chain (· ≤ ·) n0 nows →
      ∀ r ∈ runResults step s nows, P r := by
  intro s n0 nows
  induction nows generalizing s n0 with
  | nil => intro _ _ r hr; simp [runResults] at hr
  | cons n ns ih =>
    intro hR hchain r hr
    rcases List.chain_cons.mp hchain with ⟨hle, hchain2⟩
    have hRn : R s n := hmono s n0 n hR hle
    obtain ⟨hP, hR2⟩ := hstep s n hRn
    simp only [runResults, List.mem_cons] at hr
    rcases hr with hr | hr
    · exact hr ▸ hP
    · exact ih ((step s n).2) n hR2 hchain2 r hr

/-- Every stored state after a call satisfies `P`, under the same regime. -/
theorem runStates_forall {σ : Type} (step : σ → ℤ → Result × σ)
    (R : σ → ℤ → Prop) (P : σ → Prop)
    (hmono : ∀ s n n', R s n → n ≤ n' → R s n')
    (hstep : ∀ s n, R s n → P (step s n).2 ∧ R (step s n).2 n) :
    ∀ (s : σ) (n0 : ℤ) (nows : List ℤ), R s n0 → List.Chain (· ≤ ·) n0 nows →
      ∀ s2 ∈ runStates step s nows, P s2 := by
  intro s n0 nows
  induction nows generalizing s n0 with
  | nil => intro _ _ s2 hs; simp [runStates] at hs
  | cons n ns ih =>
    intro hR hchain s2 hs
    rcases List.chain_cons.mp hchain with ⟨hle, hchain2⟩
    have hRn : R s n := hmono s n0 n hR hle
    obtain ⟨hP, hR2⟩ := hstep s n hRn
    simp only [runStates, List.mem_cons] at hs
    rcases hs with hs | hs
    · exact hs ▸ hP
    · exact ih ((step s n).2) n hR2 hchain2 s2 hs

/-- Every stored state after a call satisfies an invariant preserved by
every step, for arbitrary (not necessarily monotone) clock readings. -/
theorem runStates_inv {σ : Type} (step : σ → ℤ → Result × σ)
    (P : σ → Prop) (hstep : ∀ s n, P s → P (step s n).2) :
    ∀ (s : σ) (nows : List ℤ), P s → ∀ s2 ∈ runStates step s nows, P s2 := by
  intro s nows
  induction nows generalizing s with
  | nil => intro _ s2 hs; simp [runStates] at hs
  | cons n ns ih =>
    intro hP s2 hs
    simp only [runStates, List.mem_cons] at hs
    rcases hs with hs | hs
    · exact hs ▸ hstep s n hP
    · exact ih ((step s n).2) (hstep s n hP) s2 hs

/-- Two step functions on the same state type produce identical result
sequences whenever they agree (results and states) on all states reachable
under non-decreasing clocks. -/
theorem runResults_congr {σ : Type} (step1 step2 : σ → ℤ → Result × σ)
    (R : σ → ℤ → Prop)
    (hmono : ∀ s n n', R s n → n ≤ n' → R s n')
    (hstep : ∀ s n, R s n → step1 s n = step2 s n ∧ R (step1 s n).2 n) :
    ∀ (s : σ) (n0 : ℤ) (nows : List ℤ), R s n0 → List.Chain (· ≤ ·) n0 nows →
      runResults step1 s nows = runResults step2 s nows := by
  intro s n0 nows
  induction nows generalizing s n0 with
  | nil => intro _ _; rfl
  | cons n ns ih =>
    intro hR hchain
    rcases List.chain_cons.mp hchain with ⟨hle, hchain2⟩
    have hRn : R s n := hmono s n0 n hR hle
    obtain ⟨heq, hR2⟩ := hstep s n hRn
    simp only [runResults, heq]
    exact congrArg _ (heq ▸ ih ((step1 s n).2) n hR2 hchain2)

/-- Bisimulation between two backends: a relation `R` on the two state
spaces, monotone in the clock bound and preserved by simultaneous steps
with related outputs `Q`, yields pointwise `Q`-related result sequences. -/
theorem runResults_rel {σ₁ σ₂ : Type} (step1 : σ₁ → ℤ → Result × σ₁)
    (step2 : σ₂ → ℤ → Result × σ₂)
    (R : σ₁ → σ₂ → ℤ → Prop) (Q : Result → Result → Prop)
    (hmono : ∀ s1 s2 n n', R s1 s2 n → n ≤ n' → R s1 s2 n')
    (hstep : ∀ s1 s2 n, R s1 s2 n →
      Q (step1 s1 n).1 (step2 s2 n).1 ∧ R (step1 s1 n).2 (step2 s2 n).2 n) :
    ∀ (s1 : σ₁) (s2 : σ₂) (n0 : ℤ) (nows : List ℤ), R s1 s2 n0 →
      List.Chain (· ≤ ·) n0 nows →
      List.Forall₂ Q (runResults step1 s1 nows) (runResults step2 s2 nows) := by
  intro s1 s2 n0 nows
  induction nows generalizing s1 s2 n0 with
  | nil => intro _ _; exact List.Forall₂.nil
  | cons n ns ih =>
    intro hR hchain
    rcases List.chain_cons.mp hchain with ⟨hle, hchain2⟩
    have hRn : R s1 s2 n := hmono s1 s2 n0 n hR hle
    obtain ⟨hQ, hR2⟩ := hstep s1 s2 n hRn
    exact List.Forall₂.cons hQ (ih ((step1 s1 n).2) ((step2 s2 n).2) n hR2 hchain2)

/-- The per-call invariant of spec §8.1: `retry_after_ms = 0` iff the
call was allowed, and `reset_at_ms` is at or after the call's single
clock snapshot. -/
def resultOk (nowMs : ℤ) (r : Result) : Prop :=
  (r.retryAfterMs = 0 ↔ r.allowed = true) ∧ nowMs ≤ r.resetAtMs

/-- Refinement relation between the local fixed-window state and the
remote per-window counter store, for fixed parameters, at clock bound
`n`: the stored window start is aligned, nonnegative and at most `n`;
the remote counter of that window holds `cost · m` for the `m ≥ 1` calls
made in it while the local count holds `cost · min m ⌊limit/cost⌋` (the
admitted ones); windows beyond the current one are untouched. -/
def fwRel (limit windowMs cost : ℤ) (st : Option FixedWindowState)
    (store : ℤ → ℤ) (n : ℤ) : Prop :=
  0 ≤ n ∧
  match st with
  | none => ∀ j : ℤ, store j = 0
  | some s =>
      0 ≤ s.windowStartMs ∧ s.windowStartMs ≤ n ∧
      (∃ k : ℤ, s.windowStartMs = windowMs * k) ∧
      (∃ m : ℤ, 1 ≤ m ∧ store s.windowStartMs = cost * m ∧
        s.count = cost * min m (limit / cost)) ∧
      (∀ j : ℤ, s.windowStartMs < j → store j = 0)

/-- Invariant of the remote sliding-counter store for fixed parameters,
at clock bound `n`: every window counter lies in `[0, limit]`; some
aligned window `C` (the last one written, or the bound's own window for
a fresh store) has all later windows untouched; and if the bound still
lies in window `C`, the weighted occupancy that a read at the bound
would compute is at most `limit`.  Together these bound the computed
occupancy of every read at or after `n`, which is what keeps
`remaining = floor(limit - computed)` nonnegative. -/
def scInv (limit windowMs : ℤ) (store : ℤ → ℤ) (n : ℤ) : Prop :=
  (∀ j : ℤ, 0 ≤ store j) ∧ (∀ j : ℤ, store j ≤ limit) ∧
  ∃ C : ℤ, (∃ k : ℤ, C = windowMs * k) ∧ C ≤ n - n % windowMs ∧
    (∀ j : ℤ, C < j → store j = 0) ∧
    (n - n % windowMs = C →
      (store (C - windowMs) : ℚ) * (((windowMs - n % windowMs : ℤ) : ℚ) / (windowMs : ℚ))
        + (store C : ℚ) ≤ (limit : ℚ))

/-- Whitespace as trimmed by Go's `strings.TrimSpace` (ASCII fragment of
Unicode White_Space; the requests under study contain only ASCII). -/
def goIsSpace (c : Char) : Bool :=
  c = ' ' ∨ c = '\t' ∨ c = '\n' ∨ c = '\x0b' ∨ c = '\x0c' ∨ c = '\r'

/-- Go `strings.TrimSpace`: drop whitespace from both ends. -/
def goTrimSpace (s : String) : String :=
  String.mk (((s.toList.dropWhile goIsSpace).reverse.dropWhile goIsSpace).reverse)

/-- Go `strings.ToLower` (ASCII). -/
def goToLower (s : String) : String :=
  String.mk (s.toList.map Char.toLower)

/-- Go `strings.SplitN(s, " ", 2)` on a character list: the part before the
first space, and the remainder when a space exists. -/
def splitAtFirstSpace : List Char → List Char × Option (List Char)
  | [] => ([], none)
  | c :: cs =>
    if c = ' ' then ([], some cs)
    else
      let r := splitAtFirstSpace cs
      (c :: r.1, r.2)

/-- Model of `httpapi.bearerToken`: extract the token of an `Authorization: Bearer`
header, or the empty string. -/
def bearerToken (header : String) : String :=
  let value := goTrimSpace header
  if value = "" then "" else
  match splitAtFirstSpace value.toList with
  | (_, none) => ""
  | (p0, some p1) =>
    if goToLower (String.mk p0) ≠ "bearer" then ""
    else goTrimSpace (String.mk p1)

/-- Model of `httpapi.buildKey`: derive a limiter key from the first nonempty
identifier.  The SHA-256 hex digest is passed as a function parameter:
its internals are outside the decision core, only the `jwt:` framing is
under study. -/
def buildKey (hexSha256 : String → String) (userID deviceID jwt : String) : String :=
  if userID ≠ "" then "user:" ++ userID
  else if deviceID ≠ "" then "device:" ++ deviceID
  else if jwt ≠ "" then "jwt:" ++ hexSha256 jwt
  else ""

/-- The JSON body of `POST /v1/limit/check` after decoding
(`httpapi.CheckRequest`). -/
structure CheckRequest where
  key : String
  userID : String
  deviceID : String
  jwt : String
  algorithm : String
  limit : ℤ
  windowMs : ℤ
  capacity : ℤ
  refillPerSec : ℚ
  leakPerSec : ℚ
  cost : ℤ
deriving Repr

/-- The JWT the handler ends up using: the trimmed body field, or the
bearer token of the Authorization header when the body field is empty. -/
def effectiveJwt (req : CheckRequest) (authHeader : String) : String :=
  if goTrimSpace req.jwt = "" then bearerToken authHeader else goTrimSpace req.jwt

/-- The key the handler ends up using: the trimmed explicit key, or the
derived key when the explicit key is empty. -/
def effectiveKey (hexSha256 : String → String) (req : CheckRequest) (authHeader : String) : String :=
  if goTrimSpace req.key = "" then
    buildKey hexSha256 (goTrimSpace req.userID) (goTrimSpace req.deviceID)
      (effectiveJwt req authHeader)
  else goTrimSpace req.key

/-- The five per-key maps of `MemoryBackend`. -/
structure MemoryState where
  tokenBuckets : String → Option TokenBucketState
  leakyBuckets : String → Option LeakyBucketState
  fixedWindows : String → Option FixedWindowState
  slidingLogs : String → List ℤ
  slidingCounters : String → Option SlidingCounterState

/-- Model of `NewMemoryBackend()`: all maps empty. -/
def initialMemory : MemoryState :=
  ⟨fun _ => none, fun _ => none, fun _ => none, fun _ => [], fun _ => none⟩

/-- The JSON body of a decision response (`httpapi.CheckResponse`). -/
structure CheckResponseBody where
  key : String
  algorithm : String
  allowed : Bool
  remaining : ℤ
  resetAtMs : ℤ
  retryAfterMs : ℤ
  currentCount : ℤ
  computedCount : ℤ
deriving Repr, DecidableEq

/-- Outcome of `Handler.Check` with the memory backend (which never
returns a backend error): a 400 with an error code, or a decision with
HTTP status 200/429. -/
inductive CheckReply where
  | badRequest (code : String)
  | decision (status : ℤ) (body : CheckResponseBody)
deriving Repr, DecidableEq

/-- Model of `Handler.Check` over the memory backend: normalization, key
derivation, per-algorithm parameter validation, dispatch, and mapping of
the Result into HTTP status and body. -/
def handlerCheck (hexSha256 : String → String) (req : CheckRequest) (authHeader : String)
    (ms : MemoryState) (nowMs : ℤ) : CheckReply × MemoryState :=
  let alg := goToLower (goTrimSpace req.algorithm)
  let key := effectiveKey hexSha256 req authHeader
  if key = "" ∨ alg = "" then (.badRequest "key_and_algorithm_required", ms) else
  let cost := if req.cost = 0 then 1 else req.cost
  let deliver := fun (res : Result) (ms2 : MemoryState) =>
    (CheckReply.decision (if res.allowed then 200 else 429)
      ⟨key, alg, res.allowed, res.remaining, res.resetAtMs, res.retryAfterMs,
       res.currentCount, res.computedCount⟩, ms2)
  if alg = "token_bucket" then
    if req.capacity ≤ 0 ∨ req.refillPerSec ≤ 0 then
      (.badRequest "capacity_and_refill_per_sec_required", ms)
    else
      let r := tokenBucketAllow req.capacity req.refillPerSec cost (ms.tokenBuckets key) nowMs
      deliver r.1 {ms with tokenBuckets := fun k => if k = key then r.2 else ms.tokenBuckets k}
  else if alg = "leaky_bucket" then
    if req.capacity ≤ 0 ∨ req.leakPerSec ≤ 0 then
      (.badRequest "capacity_and_leak_per_sec_required", ms)
    else
      let r := leakyBucketAllow req.capacity req.leakPerSec cost (ms.leakyBuckets key) nowMs
      deliver r.1 {ms with leakyBuckets := fun k => if k = key then r.2 else ms.leakyBuckets k}
  else if alg = "fixed_window" then
    if req.limit ≤ 0 ∨ req.windowMs ≤ 0 then
      (.badRequest "limit_and_window_ms_required", ms)
    else
      let r := fixedWindowAllow req.limit req.windowMs cost (ms.fixedWindows key) nowMs
      deliver r.1 {ms with fixedWindows := fun k => if k = key then r.2 else ms.fixedWindows k}
  else if alg = "sliding_window_log" then
    if req.limit ≤ 0 ∨ req.windowMs ≤ 0 then
      (.badRequest "limit_and_window_ms_required", ms)
    else
      let r := slidingWindowLogAllow req.limit req.windowMs cost (ms.slidingLogs key) nowMs
      deliver r.1 {ms with slidingLogs := fun k => if k = key then r.2 else ms.slidingLogs k}
  else if alg = "sliding_window_counter" then
    if req.limit ≤ 0 ∨ req.windowMs ≤ 0 then
      (.badRequest "limit_and_window_ms_required", ms)
    else
      let r := slidingWindowCounterAllow req.limit req.windowMs cost (ms.slidingCounters key) nowMs
      deliver r.1 {ms with slidingCounters := fun k => if k = key then r.2 else ms.slidingCounters k}
  else (.badRequest "unsupported_algorithm", ms)

/-- The key-derivation rule exactly as the specification words it: when no
key is provided, the first match in the precedence order user then device
then jwt, with the stated framings. -/
def specDerivedKey (hexSha256 : String → String) (req : CheckRequest) (authHeader : String) :
    String :=
  let u := goTrimSpace req.userID
  let d := goTrimSpace req.deviceID
  let j := effectiveJwt req authHeader
  if u ≠ "" then "user:" ++ u
  else if d ≠ "" then "device:" ++ d
  else if j ≠ "" then "jwt:" ++ hexSha256 j
  else ""

theorem tokenBucketAllow_guard (capacity : ℤ) (refillPerSec : ℚ) (cost : ℤ)
    (st : Option TokenBucketState) (nowMs : ℤ)
    (h : capacity ≤ 0 ∨ refillPerSec ≤ 0 ∨ cost ≤ 0) :
    tokenBucketAllow capacity refillPerSec cost st nowMs = (zeroResult, st) := by
  simp only [tokenBucketAllow, if_pos h]

theorem tokenBucketScript_guard (capacity : ℤ) (refillPerSec : ℚ) (cost : ℤ)
    (st : Option TokenBucketState) (nowMs : ℤ)
    (h : capacity ≤ 0 ∨ refillPerSec ≤ 0 ∨ cost ≤ 0) :
    tokenBucketScript capacity refillPerSec cost st nowMs = (zeroResult, st) := by
  simp only [tokenBucketScript, if_pos h]

theorem leakyBucketAllow_guard (capacity : ℤ) (leakPerSec : ℚ) (cost : ℤ)
    (st : Option LeakyBucketState) (nowMs : ℤ)
    (h : capacity ≤ 0 ∨ leakPerSec ≤ 0 ∨ cost ≤ 0) :
    leakyBucketAllow capacity leakPerSec cost st nowMs = (zeroResult, st) := by
  simp only [leakyBucketAllow, if_pos h]

theorem leakyBucketScript_guard (capacity : ℤ) (leakPerSec : ℚ) (cost : ℤ)
    (st : Option LeakyBucketState) (nowMs : ℤ)
    (h : capacity ≤ 0 ∨ leakPerSec ≤ 0 ∨ cost ≤ 0) :
    leakyBucketScript capacity leakPerSec cost st nowMs = (zeroResult, st) := by
  simp only [leakyBucketScript, if_pos h]

theorem fixedWindowAllow_guard (limit windowMs cost : ℤ)
    (st : Option FixedWindowState) (nowMs : ℤ)
    (h : limit ≤ 0 ∨ windowMs ≤ 0 ∨ cost ≤ 0) :
    fixedWindowAllow limit windowMs cost st nowMs = (zeroResult, st) := by
  simp only [fixedWindowAllow, if_pos h]

theorem fixedWindowScript_guard (limit windowMs cost : ℤ)
    (store : ℤ → ℤ) (nowMs : ℤ)
    (h : limit ≤ 0 ∨ windowMs ≤ 0 ∨ cost ≤ 0) :
    fixedWindowScript limit windowMs cost store nowMs = (zeroResult, store) := by
  simp only [fixedWindowScript, if_pos h]

theorem slidingWindowLogAllow_guard (limit windowMs cost : ℤ)
    (logs : List ℤ) (nowMs : ℤ)
    (h : limit ≤ 0 ∨ windowMs ≤ 0 ∨ cost ≤ 0) :
    slidingWindowLogAllow limit windowMs cost logs nowMs = (zeroResult, logs) := by
  simp only [slidingWindowLogAllow, if_pos h]

theorem slidingLogScript_guard (limit windowMs cost : ℤ)
    (scores : List ℤ) (nowMs : ℤ)
    (h : limit ≤ 0 ∨ windowMs ≤ 0 ∨ cost ≤ 0) :
    slidingLogScript limit windowMs cost scores nowMs = (zeroResult, scores) := by
  simp only [slidingLogScript, if_pos h]

theorem slidingWindowCounterAllow_guard (limit windowMs cost : ℤ)
    (st : Option SlidingCounterState) (nowMs : ℤ)
    (h : limit ≤ 0 ∨ windowMs ≤ 0 ∨ cost ≤ 0) :
    slidingWindowCounterAllow limit windowMs cost st nowMs = (zeroResult, st) := by
  simp only [slidingWindowCounterAllow, if_pos h]

theorem slidingCounterScript_guard (limit windowMs cost : ℤ)
    (store : ℤ → ℤ) (nowMs : ℤ)
    (h : limit ≤ 0 ∨ windowMs ≤ 0 ∨ cost ≤ 0) :
    slidingCounterScript limit windowMs cost store nowMs = (zeroResult, store) := by
  simp only [slidingCounterScript, if_pos h]

/-- C8: for each of the five decision operations on either backend, a
nonpositive `capacity`, `refill_per_sec`, `leak_per_sec`, `limit`,
`window_ms` or `cost` makes the operation return the zero-valued Result
with no error and leave the stored state unchanged. -/
theorem C8_nonpositive_params_are_noops :
    (∀ (capacity : ℤ) (refillPerSec : ℚ) (cost : ℤ) (st : Option TokenBucketState) (nowMs : ℤ),
      capacity ≤ 0 ∨ refillPerSec ≤ 0 ∨ cost ≤ 0 →
      tokenBucketAllow capacity refillPerSec cost st nowMs = (zeroResult, st)) ∧
    (∀ (capacity : ℤ) (refillPerSec : ℚ) (cost : ℤ) (st : Option TokenBucketState) (nowMs : ℤ),
      capacity ≤ 0 ∨ refillPerSec ≤ 0 ∨ cost ≤ 0 →
      tokenBucketScript capacity refillPerSec cost st nowMs = (zeroResult, st)) ∧
    (∀ (capacity : ℤ) (leakPerSec : ℚ) (cost : ℤ) (st : Option LeakyBucketState) (nowMs : ℤ),
      capacity ≤ 0 ∨ leakPerSec ≤ 0 ∨ cost ≤ 0 →
      leakyBucketAllow capacity leakPerSec cost st nowMs = (zeroResult, st)) ∧
    (∀ (capacity : ℤ) (leakPerSec : ℚ) (cost : ℤ) (st : Option LeakyBucketState) (nowMs : ℤ),
      capacity ≤ 0 ∨ leakPerSec ≤ 0 ∨ cost ≤ 0 →
      leakyBucketScript capacity leakPerSec cost st nowMs = (zeroResult, st)) ∧
    (∀ (limit windowMs cost : ℤ) (st : Option FixedWindowState) (nowMs : ℤ),
      limit ≤ 0 ∨ windowMs ≤ 0 ∨ cost ≤ 0 →
      fixedWindowAllow limit windowMs cost st nowMs = (zeroResult, st)) ∧
    (∀ (limit windowMs cost : ℤ) (store : ℤ → ℤ) (nowMs : ℤ),
      limit ≤ 0 ∨ windowMs ≤ 0 ∨ cost ≤ 0 →
      fixedWindowScript limit windowMs cost store nowMs = (zeroResult, store)) ∧
    (∀ (limit windowMs cost : ℤ) (logs : List ℤ) (nowMs : ℤ),
      limit ≤ 0 ∨ windowMs ≤ 0 ∨ cost ≤ 0 →
      slidingWindowLogAllow limit windowMs cost logs nowMs = (zeroResult, logs)) ∧
    (∀ (limit windowMs cost : ℤ) (scores : List ℤ) (nowMs : ℤ),
      limit ≤ 0 ∨ windowMs ≤ 0 ∨ cost ≤ 0 →
      slidingLogScript limit windowMs cost scores nowMs = (zeroResult, scores)) ∧
    (∀ (limit windowMs cost : ℤ) (st : Option SlidingCounterState) (nowMs : ℤ),
      limit ≤ 0 ∨ windowMs ≤ 0 ∨ cost ≤ 0 →
      slidingWindowCounterAllow limit windowMs cost st nowMs = (zeroResult, st)) ∧
    (∀ (limit windowMs cost : ℤ) (store : ℤ → ℤ) (nowMs : ℤ),
      limit ≤ 0 ∨ windowMs ≤ 0 ∨ cost ≤ 0 →
      slidingCounterScript limit windowMs cost store nowMs = (zeroResult, store)) :=
  ⟨tokenBucketAllow_guard, tokenBucketScript_guard, leakyBucketAllow_guard,
   leakyBucketScript_guard, fixedWindowAllow_guard, fixedWindowScript_guard,
   slidingWindowLogAllow_guard, slidingLogScript_guard,
   slidingWindowCounterAllow_guard, slidingCounterScript_guard⟩

/-- C8 witness: each of the ten operations evaluated at a concrete
nonpositive parameter returns the zero Result and the incoming state. -/
theorem C8_witness :
    tokenBucketAllow 0 5 1 (some ⟨3, 7⟩) 9 = (zeroResult, some ⟨3, 7⟩) ∧
    tokenBucketScript 10 0 1 (some ⟨3, 7⟩) 9 = (zeroResult, some ⟨3, 7⟩) ∧
    leakyBucketAllow 10 5 (-2) (some ⟨3, 7⟩) 9 = (zeroResult, some ⟨3, 7⟩) ∧
    leakyBucketScript 0 5 1 (some ⟨3, 7⟩) 9 = (zeroResult, some ⟨3, 7⟩) ∧
    fixedWindowAllow (-1) 1000 1 (some ⟨3, 7⟩) 9 = (zeroResult, some ⟨3, 7⟩) ∧
    fixedWindowScript 5 0 1 (fun _ => 4) 9 = (zeroResult, fun _ => 4) ∧
    slidingWindowLogAllow 5 1000 0 [3] 9 = (zeroResult, [3]) ∧
    slidingLogScript 5 (-3) 1 [3] 9 = (zeroResult, [3]) ∧
    slidingWindowCounterAllow 0 1000 1 (some ⟨0, 1, 2⟩) 9 = (zeroResult, some ⟨0, 1, 2⟩) ∧
    slidingCounterScript 5 1000 (-1) (fun _ => 4) 9 = (zeroResult, fun _ => 4) :=
  ⟨C8_nonpositive_params_are_noops.1 0 5 1 _ 9 (Or.inl (by norm_num)),
   C8_nonpositive_params_are_noops.2.1 10 0 1 _ 9 (Or.inr (Or.inl (by norm_num))),
   C8_nonpositive_params_are_noops.2.2.1 10 5 (-2) _ 9 (Or.inr (Or.inr (by norm_num))),
   C8_nonpositive_params_are_noops.2.2.2.1 0 5 1 _ 9 (Or.inl (by norm_num)),
   C8_nonpositive_params_are_noops.2.2.2.2.1 (-1) 1000 1 _ 9 (Or.inl (by norm_num)),
   C8_nonpositive_params_are_noops.2.2.2.2.2.1 5 0 1 _ 9 (Or.inr (Or.inl (by norm_num))),
   C8_nonpositive_params_are_noops.2.2.2.2.2.2.1 5 1000 0 _ 9 (Or.inr (Or.inr (by norm_num))),
   C8_nonpositive_params_are_noops.2.2.2.2.2.2.2.1 5 (-3) 1 _ 9 (Or.inr (Or.inl (by norm_num))),
   C8_nonpositive_params_are_noops.2.2.2.2.2.2.2.2.1 0 1000 1 _ 9 (Or.inl (by norm_num)),
   C8_nonpositive_params_are_noops.2.2.2.2.2.2.2.2.2 5 1000 (-1) _ 9
     (Or.inr (Or.inr (by norm_num)))⟩

/-- C2: the claim says a backward clock (`now_ms < last_ms`) clamps
`last_ms` and leaves the stored level unchanged on either backend.  The
Redis scripts do clamp, but the memory backend does not: at the stored
state `{tokens = 10, last_ms = 1000}` a call at `now_ms = 0`
(capacity 10, refill 5/s, cost 1) applies a negative refill of −5 before
charging the cost, storing `tokens = 4`, while the clamped script stores
`tokens = 9`; the leaky bucket likewise grows its stored water from 5 to
15 (capacity 5) instead of leaving it at 5. -/
theorem C2_memory_backend_lacks_clock_clamp :
    (tokenBucketAllow 10 5 1 (some ⟨10, 1000⟩) 0).2 = some ⟨4, 0⟩ ∧
    (tokenBucketScript 10 5 1 (some ⟨10, 1000⟩) 0).2 = some ⟨9, 0⟩ ∧
    (leakyBucketAllow 5 10 1 (some ⟨5, 1000⟩) 0).2 = some ⟨15, 0⟩ ∧
    (leakyBucketScript 5 10 1 (some ⟨5, 1000⟩) 0).2 = some ⟨5, 0⟩ := by
  with_unfolding_all decide

/-- C4: the claim says stored bucket state always satisfies
`0 ≤ tokens ≤ capacity` and `0 ≤ water ≤ capacity`.  On the memory
backend a backward clock breaks both bounds (the Redis scripts clamp):
from a fresh key, a call at `t = 2000` followed by one at `t = 0` stores
`tokens = −1` (token bucket, capacity 10, refill 5/s) and `water = 21 >
capacity = 5` (leaky bucket, leak 10/s). -/
theorem C4_memory_backend_bucket_bounds_fail :
    runStates (tokenBucketAllow 10 5 1) none [2000, 0]
      = [some ⟨9, 2000⟩, some ⟨-1, 0⟩] ∧
    runStates (leakyBucketAllow 5 10 1) none [2000, 0]
      = [some ⟨1, 2000⟩, some ⟨21, 0⟩] := by
  with_unfolding_all decide

/-- C1 counterexample: with identical keys, parameters and clock readings
(fixed window, limit 1, window 1000 ms, cost 1, two calls at `t = 0`),
the local and remote backends do not produce bit-identical Results: on
the denied second call the local backend reports `remaining = 0` and
`current_count = 1` while the remote script reports `remaining = −1` and
`current_count = 2`. -/
theorem C1_counterexample :
    runResults (fixedWindowAllow 1 1000 1) none [0, 0]
      ≠ runResults (fixedWindowScript 1 1000 1) (fun _ => 0) [0, 0] := by
  with_unfolding_all decide

/-- C3 counterexample: the remote fixed-window script emits a Result with
`remaining = −1 < 0` on the second of two same-window calls with
limit 1, window 1000 ms, cost 1, both at `t = 0`. -/
theorem C3_counterexample :
    (runResults (fixedWindowScript 1 1000 1) (fun _ => 0) [0, 0]).map Result.remaining
      = [0, -1] := by
  with_unfolding_all decide

theorem tokenBucket_form_resultOk (capacity : ℤ) (refillPerSec : ℚ) (cost : ℤ)
    (nowMs : ℤ) (M : ℚ)
    (href : 0 < refillPerSec) (hcost : 0 < cost) (htcap : M ≤ (capacity : ℚ)) :
    resultOk nowMs
      ⟨decide ((cost : ℚ) ≤ M), ⌊if (cost : ℚ) ≤ M then M - (cost : ℚ) else M⌋,
       nowMs + ⌈((capacity : ℚ) - if (cost : ℚ) ≤ M then M - (cost : ℚ) else M)
          / refillPerSec * 1000⌉,
       if (cost : ℚ) ≤ M then 0
       else ⌈((cost : ℚ) - if (cost : ℚ) ≤ M then M - (cost : ℚ) else M)
          / refillPerSec * 1000⌉, 0, 0⟩ := by
  have hcostq : (0 : ℚ) < (cost : ℚ) := by exact_mod_cast hcost
  by_cases hc : (cost : ℚ) ≤ M
  · simp only [resultOk, if_pos hc]
    refine ⟨by simp [hc], ?_⟩
    have hnn : (0 : ℚ) ≤ ((capacity : ℚ) - (M - (cost : ℚ))) / refillPerSec * 1000 :=
      mul_nonneg (div_nonneg (by linarith) href.le) (by norm_num)
    linarith [Int.ceil_nonneg hnn]
  · simp only [resultOk, if_neg hc]
    have hpos : (0 : ℤ) < ⌈((cost : ℚ) - M) / refillPerSec * 1000⌉ :=
      Int.ceil_pos.mpr (mul_pos (div_pos (by linarith [not_le.mp hc]) href)
        (by norm_num : (0 : ℚ) < 1000))
    refine ⟨?_, ?_⟩
    · rw [decide_eq_true_eq]
      exact ⟨fun h0 => absurd h0 (by omega), fun h => absurd h hc⟩
    · have hnn : (0 : ℚ) ≤ ((capacity : ℚ) - M) / refillPerSec * 1000 :=
        mul_nonneg (div_nonneg (by linarith) href.le) (by norm_num)
      linarith [Int.ceil_nonneg hnn]

theorem leakyBucket_form_resultOk (capacity : ℤ) (leakPerSec : ℚ) (cost : ℤ)
    (nowMs : ℤ) (W : ℚ)
    (hleak : 0 < leakPerSec) (hcost : 0 < cost) (hW : 0 ≤ W) :
    resultOk nowMs
      ⟨decide (W + (cost : ℚ) ≤ (capacity : ℚ)),
       ⌊(capacity : ℚ) - if W + (cost : ℚ) ≤ (capacity : ℚ) then W + (cost : ℚ) else W⌋,
       nowMs + ⌈(if W + (cost : ℚ) ≤ (capacity : ℚ) then W + (cost : ℚ) else W)
          / leakPerSec * 1000⌉,
       if W + (cost : ℚ) ≤ (capacity : ℚ) then 0
       else ⌈((if W + (cost : ℚ) ≤ (capacity : ℚ) then W + (cost : ℚ) else W)
          + (cost : ℚ) - (capacity : ℚ)) / leakPerSec * 1000⌉, 0, 0⟩ := by
  have hcostq : (0 : ℚ) < (cost : ℚ) := by exact_mod_cast hcost
  by_cases hc : W + (cost : ℚ) ≤ (capacity : ℚ)
  · simp only [resultOk, if_pos hc]
    refine ⟨by simp [hc], ?_⟩
    have hnn : (0 : ℚ) ≤ (W + (cost : ℚ)) / leakPerSec * 1000 :=
      mul_nonneg (div_nonneg (by linarith) hleak.le) (by norm_num)
    linarith [Int.ceil_nonneg hnn]
  · simp only [resultOk, if_neg hc]
    have hpos : (0 : ℤ) < ⌈(W + (cost : ℚ) - (capacity : ℚ)) / leakPerSec * 1000⌉ :=
      Int.ceil_pos.mpr (mul_pos (div_pos (by linarith [not_le.mp hc]) hleak)
        (by norm_num : (0 : ℚ) < 1000))
    refine ⟨?_, ?_⟩
    · rw [decide_eq_true_eq]
      exact ⟨fun h0 => absurd h0 (by omega), fun h => absurd h hc⟩
    · have hnn : (0 : ℚ) ≤ W / leakPerSec * 1000 :=
        mul_nonneg (div_nonneg hW hleak.le) (by norm_num)
      linarith [Int.ceil_nonneg hnn]

theorem tokenBucketAllow_resultOk (capacity : ℤ) (refillPerSec : ℚ) (cost : ℤ)
    (st : Option TokenBucketState) (nowMs : ℤ)
    (hcap : 0 < capacity) (href : 0 < refillPerSec) (hcost : 0 < cost) :
    resultOk nowMs (tokenBucketAllow capacity refillPerSec cost st nowMs).1 := by
  have hg : ¬ (capacity ≤ 0 ∨ refillPerSec ≤ 0 ∨ cost ≤ 0) := by
    push_neg; exact ⟨hcap, href, hcost⟩
  simp only [tokenBucketAllow, if_neg hg]
  exact tokenBucket_form_resultOk capacity refillPerSec cost nowMs _ href hcost
    (min_le_left _ _)

theorem tokenBucketScript_resultOk (capacity : ℤ) (refillPerSec : ℚ) (cost : ℤ)
    (st : Option TokenBucketState) (nowMs : ℤ)
    (hcap : 0 < capacity) (href : 0 < refillPerSec) (hcost : 0 < cost) :
    resultOk nowMs (tokenBucketScript capacity refillPerSec cost st nowMs).1 := by
  have hg : ¬ (capacity ≤ 0 ∨ refillPerSec ≤ 0 ∨ cost ≤ 0) := by
    push_neg; exact ⟨hcap, href, hcost⟩
  simp only [tokenBucketScript, if_neg hg]
  exact tokenBucket_form_resultOk capacity refillPerSec cost nowMs _ href hcost
    (min_le_left _ _)

theorem leakyBucketAllow_resultOk (capacity : ℤ) (leakPerSec : ℚ) (cost : ℤ)
    (st : Option LeakyBucketState) (nowMs : ℤ)
    (hcap : 0 < capacity) (hleak : 0 < leakPerSec) (hcost : 0 < cost) :
    resultOk nowMs (leakyBucketAllow capacity leakPerSec cost st nowMs).1 := by
  have hg : ¬ (capacity ≤ 0 ∨ leakPerSec ≤ 0 ∨ cost ≤ 0) := by
    push_neg; exact ⟨hcap, hleak, hcost⟩
  simp only [leakyBucketAllow, if_neg hg]
  exact leakyBucket_form_resultOk capacity leakPerSec cost nowMs _ hleak hcost
    (le_max_left _ _)

theorem leakyBucketScript_resultOk (capacity : ℤ) (leakPerSec : ℚ) (cost : ℤ)
    (st : Option LeakyBucketState) (nowMs : ℤ)
    (hcap : 0 < capacity) (hleak : 0 < leakPerSec) (hcost : 0 < cost) :
    resultOk nowMs (leakyBucketScript capacity leakPerSec cost st nowMs).1 := by
  have hg : ¬ (capacity ≤ 0 ∨ leakPerSec ≤ 0 ∨ cost ≤ 0) := by
    push_neg; exact ⟨hcap, hleak, hcost⟩
  simp only [leakyBucketScript, if_neg hg]
  exact leakyBucket_form_resultOk capacity leakPerSec cost nowMs _ hleak hcost
    (le_max_left _ _)

theorem decision_form_resultOk (nowMs reset : ℤ) (p : Prop) [Decidable p] (r cc co : ℤ)
    (h : nowMs < reset) :
    resultOk nowMs ⟨decide p, r, reset, if p then 0 else reset - nowMs, cc, co⟩ := by
  by_cases hp : p
  · simp only [resultOk, if_pos hp]
    exact ⟨by simp [hp], by omega⟩
  · simp only [resultOk, if_neg hp]
    refine ⟨?_, by omega⟩
    rw [decide_eq_true_eq]
    exact ⟨fun h0 => absurd h0 (by omega), fun hh => absurd hh hp⟩

theorem fixedWindowAllow_resultOk (limit windowMs cost : ℤ)
    (st : Option FixedWindowState) (nowMs : ℤ)
    (hl : 0 < limit) (hw : 0 < windowMs) (hc : 0 < cost) :
    resultOk nowMs (fixedWindowAllow limit windowMs cost st nowMs).1 := by
  have hg : ¬ (limit ≤ 0 ∨ windowMs ≤ 0 ∨ cost ≤ 0) := by push_neg; exact ⟨hl, hw, hc⟩
  have hmod := Int.tmod_lt_of_pos nowMs hw
  rcases st with _ | s
  · simp only [fixedWindowAllow, if_neg hg]
    exact decision_form_resultOk _ _ _ _ _ _ (by omega)
  · by_cases hr : windowMs ≤ nowMs - s.windowStartMs
    · simp only [fixedWindowAllow, if_neg hg, if_pos hr]
      exact decision_form_resultOk _ _ _ _ _ _ (by omega)
    · simp only [fixedWindowAllow, if_neg hg, if_neg hr]
      exact decision_form_resultOk _ _ _ _ _ _ (by omega)

theorem fixedWindowScript_resultOk (limit windowMs cost : ℤ)
    (store : ℤ → ℤ) (nowMs : ℤ)
    (hl : 0 < limit) (hw : 0 < windowMs) (hc : 0 < cost) :
    resultOk nowMs (fixedWindowScript limit windowMs cost store nowMs).1 := by
  have hg : ¬ (limit ≤ 0 ∨ windowMs ≤ 0 ∨ cost ≤ 0) := by push_neg; exact ⟨hl, hw, hc⟩
  have hmod := Int.emod_lt_of_pos nowMs hw
  simp only [fixedWindowScript, if_neg hg]
  exact decision_form_resultOk _ _ _ _ _ _ (by omega)

theorem slidingWindowCounterAllow_resultOk (limit windowMs cost : ℤ)
    (st : Option SlidingCounterState) (nowMs : ℤ)
    (hl : 0 < limit) (hw : 0 < windowMs) (hc : 0 < cost) :
    resultOk nowMs (slidingWindowCounterAllow limit windowMs cost st nowMs).1 := by
  have hg : ¬ (limit ≤ 0 ∨ windowMs ≤ 0 ∨ cost ≤ 0) := by push_neg; exact ⟨hl, hw, hc⟩
  have hmod := Int.tmod_lt_of_pos nowMs hw
  rcases st with _ | s
  · simp only [slidingWindowCounterAllow, if_neg hg, Option.getD_none, eq_self_iff_true,
      if_true]
    exact decision_form_resultOk _ _ _ _ _ _ (by omega)
  · by_cases he : s.windowStartMs = nowMs - Int.tmod nowMs windowMs
    · simp only [slidingWindowCounterAllow, if_neg hg, Option.getD_some, if_pos he]
      exact decision_form_resultOk _ _ _ _ _ _ (by omega)
    · simp only [slidingWindowCounterAllow, if_neg hg, Option.getD_some, if_neg he]
      exact decision_form_resultOk _ _ _ _ _ _ (by omega)

theorem slidingCounterScript_resultOk (limit windowMs cost : ℤ)
    (store : ℤ → ℤ) (nowMs : ℤ)
    (hl : 0 < limit) (hw : 0 < windowMs) (hc : 0 < cost) :
    resultOk nowMs (slidingCounterScript limit windowMs cost store nowMs).1 := by
  have hg : ¬ (limit ≤ 0 ∨ windowMs ≤ 0 ∨ cost ≤ 0) := by push_neg; exact ⟨hl, hw, hc⟩
  have hmod := Int.emod_lt_of_pos nowMs hw
  simp only [slidingCounterScript, if_neg hg]
  exact decision_form_resultOk _ _ _ _ _ _ (by omega)

theorem slidingWindowLogAllow_resultOk (limit windowMs cost : ℤ)
    (logs : List ℤ) (nowMs : ℤ)
    (hl : 0 < limit) (hw : 0 < windowMs) (hc : 0 < cost) :
    resultOk nowMs (slidingWindowLogAllow limit windowMs cost logs nowMs).1 := by
  have hg : ¬ (limit ≤ 0 ∨ windowMs ≤ 0 ∨ cost ≤ 0) := by push_neg; exact ⟨hl, hw, hc⟩
  have hkept : ∀ t ∈ logs.filter (fun ts => decide (nowMs - windowMs < ts)),
      nowMs - windowMs < t := by
    intro t ht
    have h1 := (List.mem_filter.mp ht).2
    simp only [decide_eq_true_eq] at h1
    exact h1
  simp only [slidingWindowLogAllow, if_neg hg]
  apply decision_form_resultOk
  by_cases hadm : ((logs.filter (fun ts => decide (nowMs - windowMs < ts))).length : ℤ)
      + cost ≤ limit
  · rw [if_pos hadm]
    cases hK : logs.filter (fun ts => decide (nowMs - windowMs < ts)) with
    | nil =>
      simp only [List.nil_append]
      obtain ⟨n, hn⟩ : ∃ n, cost.toNat = n + 1 := ⟨cost.toNat - 1, by omega⟩
      rw [hn, List.replicate_succ]
      show nowMs < nowMs + windowMs
      omega
    | cons t rest =>
      show nowMs < t + windowMs
      have := hkept t (by rw [hK]; exact List.mem_cons_self t rest)
      omega
  · rw [if_neg hadm]
    cases hK : logs.filter (fun ts => decide (nowMs - windowMs < ts)) with
    | nil =>
      show nowMs < nowMs + windowMs
      omega
    | cons t rest =>
      show nowMs < t + windowMs
      have := hkept t (by rw [hK]; exact List.mem_cons_self t rest)
      omega

theorem slidingLogScript_resultOk (limit windowMs cost : ℤ)
    (scores : List ℤ) (nowMs : ℤ)
    (hl : 0 < limit) (hw : 0 < windowMs) (hc : 0 < cost)
    (hsc : ∀ ts ∈ scores, 0 ≤ ts) :
    resultOk nowMs (slidingLogScript limit windowMs cost scores nowMs).1 := by
  have hg : ¬ (limit ≤ 0 ∨ windowMs ≤ 0 ∨ cost ≤ 0) := by push_neg; exact ⟨hl, hw, hc⟩
  have hkept : ∀ t ∈ scores.filter
      (fun ts => decide (¬ (0 ≤ ts ∧ ts ≤ nowMs - windowMs))), nowMs - windowMs < t := by
    intro t ht
    have h1 := (List.mem_filter.mp ht).2
    simp only [decide_eq_true_eq] at h1
    have h2 : 0 ≤ t := hsc t (List.mem_filter.mp ht).1
    omega
  simp only [slidingLogScript, if_neg hg]
  apply decision_form_resultOk
  by_cases hadm : ((scores.filter
      (fun ts => decide (¬ (0 ≤ ts ∧ ts ≤ nowMs - windowMs)))).length : ℤ) + cost ≤ limit
  · rw [if_pos hadm, if_pos hadm, if_pos (by omega :
      (0 : ℤ) < ((scores.filter
        (fun ts => decide (¬ (0 ≤ ts ∧ ts ≤ nowMs - windowMs)))).length : ℤ) + cost)]
    cases hmin : (scores.filter (fun ts => decide (¬ (0 ≤ ts ∧ ts ≤ nowMs - windowMs)))
        ++ List.replicate cost.toNat nowMs).min? with
    | none =>
      rw [List.min?_eq_none_iff] at hmin
      rcases List.append_eq_nil.mp hmin with ⟨-, hrep⟩
      have : cost.toNat = 0 := by
        by_contra hne
        obtain ⟨n, hn⟩ : ∃ n, cost.toNat = n + 1 := ⟨cost.toNat - 1, by omega⟩
        rw [hn, List.replicate_succ] at hrep
        exact List.cons_ne_nil _ _ hrep
      omega
    | some m =>
      rw [Option.getD_some]
      have hm := List.min?_mem (fun a b => min_choice a b) hmin
      rcases List.mem_append.mp hm with hm | hm
      · have := hkept m hm
        omega
      · have := List.eq_of_mem_replicate hm
        omega
  · rw [if_neg hadm, if_neg hadm]
    by_cases hpos : (0 : ℤ) < ((scores.filter
        (fun ts => decide (¬ (0 ≤ ts ∧ ts ≤ nowMs - windowMs)))).length : ℤ)
    · rw [if_pos hpos]
      cases hmin : (scores.filter
          (fun ts => decide (¬ (0 ≤ ts ∧ ts ≤ nowMs - windowMs)))).min? with
      | none =>
        rw [List.min?_eq_none_iff] at hmin
        rw [hmin] at hpos
        simp at hpos
      | some m =>
        rw [Option.getD_some]
        have hm := List.min?_mem (fun a b => min_choice a b) hmin
        have := hkept m hm
        omega
    · rw [if_neg hpos]
      omega

/-- C6: the token-bucket operation refills to
`min(capacity, tokens + (now − last_ms)/1000 · refill_per_sec)`, admits
iff the refilled level covers `cost` (subtracting it on admit); and in
the concrete scenario capacity 10, refill 5/s, cost 1, eleven
back-to-back calls at `t = 0` give ten admits then a denial with
`retry_after_ms = 200`, and a further call at `t = 200` is admitted. -/
theorem C6_token_bucket_semantics :
    (∀ (capacity : ℤ) (refillPerSec : ℚ) (cost : ℤ) (s : TokenBucketState)
        (nowMs : ℤ) (t1 : ℚ),
      0 < capacity → 0 < refillPerSec → 0 < cost →
      t1 = min (capacity : ℚ) (s.tokens + ((nowMs - s.lastMs : ℤ) : ℚ) / 1000 * refillPerSec) →
      (tokenBucketAllow capacity refillPerSec cost (some s) nowMs).1.allowed
          = decide ((cost : ℚ) ≤ t1) ∧
      (tokenBucketAllow capacity refillPerSec cost (some s) nowMs).2
          = some ⟨if (cost : ℚ) ≤ t1 then t1 - (cost : ℚ) else t1, nowMs⟩) ∧
    (runResults (tokenBucketAllow 10 5 1) none
        [0, 0, 0, 0, 0, 0, 0, 0, 0, 0, 0, 200]).map Result.allowed
      = [true, true, true, true, true, true, true, true, true, true, false, true] ∧
    (runResults (tokenBucketAllow 10 5 1) none
        [0, 0, 0, 0, 0, 0, 0, 0, 0, 0, 0, 200]).map Result.retryAfterMs
      = [0, 0, 0, 0, 0, 0, 0, 0, 0, 0, 200, 0] := by
  refine ⟨?_, ?_, ?_⟩
  · intro capacity refillPerSec cost s nowMs t1 hcap href hcost ht
    subst ht
    unfold tokenBucketAllow
    rw [if_neg (by push_neg; exact ⟨hcap, href, hcost⟩)]
    exact ⟨rfl, rfl⟩
  · with_unfolding_all decide
  · with_unfolding_all decide

/-- C6 witness: the refill formula instantiated at state
`{tokens = 2, last_ms = 0}`, a call at `t = 200` with capacity 10,
refill 5/s, cost 1: the refilled level is 3, the call is admitted, and
the stored state becomes `{tokens = 2, last_ms = 200}`. -/
theorem C6_witness :
    (tokenBucketAllow 10 5 1 (some ⟨2, 0⟩) 200).1.allowed = true ∧
    (tokenBucketAllow 10 5 1 (some ⟨2, 0⟩) 200).2 = some ⟨2, 200⟩ := by
  have h := C6_token_bucket_semantics.1 10 5 1 ⟨2, 0⟩ 200 3
    (by norm_num) (by norm_num) (by norm_num)
    (by with_unfolding_all decide)
  refine ⟨?_, ?_⟩
  · rw [h.1]; with_unfolding_all decide
  · rw [h.2]; with_unfolding_all decide

/-- C5 counterexample: the claim quantifies over every decision call, but
a call that trips the defensive parameter guard (here capacity 0) returns
the zero Result: `allowed = false` with `retry_after_ms = 0` (breaking
the stated iff) and `reset_at_ms = 0 < now_ms`. -/
theorem C5_counterexample :
    (tokenBucketAllow 0 5 1 none 5).1.allowed = false ∧
    (tokenBucketAllow 0 5 1 none 5).1.retryAfterMs = 0 ∧
    (tokenBucketAllow 0 5 1 none 5).1.resetAtMs < 5 := by
  with_unfolding_all decide

/-- C5 (amended): for every decision call whose parameters are all
positive, on every algorithm and either backend, `retry_after_ms = 0`
iff `allowed`, and `reset_at_ms ≥ now_ms` — for the remote sliding-log
script under stored timestamps that are nonnegative, as every real clock
reading is. -/
theorem C5_retry_iff_allowed_and_reset_bound :
    (∀ (capacity : ℤ) (refillPerSec : ℚ) (cost : ℤ) (st : Option TokenBucketState) (nowMs : ℤ),
      0 < capacity → 0 < refillPerSec → 0 < cost →
      resultOk nowMs (tokenBucketAllow capacity refillPerSec cost st nowMs).1) ∧
    (∀ (capacity : ℤ) (refillPerSec : ℚ) (cost : ℤ) (st : Option TokenBucketState) (nowMs : ℤ),
      0 < capacity → 0 < refillPerSec → 0 < cost →
      resultOk nowMs (tokenBucketScript capacity refillPerSec cost st nowMs).1) ∧
    (∀ (capacity : ℤ) (leakPerSec : ℚ) (cost : ℤ) (st : Option LeakyBucketState) (nowMs : ℤ),
      0 < capacity → 0 < leakPerSec → 0 < cost →
      resultOk nowMs (leakyBucketAllow capacity leakPerSec cost st nowMs).1) ∧
    (∀ (capacity : ℤ) (leakPerSec : ℚ) (cost : ℤ) (st : Option LeakyBucketState) (nowMs : ℤ),
      0 < capacity → 0 < leakPerSec → 0 < cost →
      resultOk nowMs (leakyBucketScript capacity leakPerSec cost st nowMs).1) ∧
    (∀ (limit windowMs cost : ℤ) (st : Option FixedWindowState) (nowMs : ℤ),
      0 < limit → 0 < windowMs → 0 < cost →
      resultOk nowMs (fixedWindowAllow limit windowMs cost st nowMs).1) ∧
    (∀ (limit windowMs cost : ℤ) (store : ℤ → ℤ) (nowMs : ℤ),
      0 < limit → 0 < windowMs → 0 < cost →
      resultOk nowMs (fixedWindowScript limit windowMs cost store nowMs).1) ∧
    (∀ (limit windowMs cost : ℤ) (logs : List ℤ) (nowMs : ℤ),
      0 < limit → 0 < windowMs → 0 < cost →
      resultOk nowMs (slidingWindowLogAllow limit windowMs cost logs nowMs).1) ∧
    (∀ (limit windowMs cost : ℤ) (scores : List ℤ) (nowMs : ℤ),
      0 < limit → 0 < windowMs → 0 < cost → (∀ ts ∈ scores, 0 ≤ ts) →
      resultOk nowMs (slidingLogScript limit windowMs cost scores nowMs).1) ∧
    (∀ (limit windowMs cost : ℤ) (st : Option SlidingCounterState) (nowMs : ℤ),
      0 < limit → 0 < windowMs → 0 < cost →
      resultOk nowMs (slidingWindowCounterAllow limit windowMs cost st nowMs).1) ∧
    (∀ (limit windowMs cost : ℤ) (store : ℤ → ℤ) (nowMs : ℤ),
      0 < limit → 0 < windowMs → 0 < cost →
      resultOk nowMs (slidingCounterScript limit windowMs cost store nowMs).1) :=
  ⟨tokenBucketAllow_resultOk, tokenBucketScript_resultOk, leakyBucketAllow_resultOk,
   leakyBucketScript_resultOk, fixedWindowAllow_resultOk, fixedWindowScript_resultOk,
   slidingWindowLogAllow_resultOk, slidingLogScript_resultOk,
   slidingWindowCounterAllow_resultOk, slidingCounterScript_resultOk⟩

/-- C5 witness: the amended invariant instantiated at concrete calls on
each of the ten operations. -/
theorem C5_witness :
    resultOk 5 (tokenBucketAllow 10 5 1 none 5).1 ∧
    resultOk 5 (tokenBucketScript 10 5 1 (some ⟨0, 9⟩) 5).1 ∧
    resultOk 5 (leakyBucketAllow 10 5 1 (some ⟨4, 2⟩) 5).1 ∧
    resultOk 5 (leakyBucketScript 10 5 1 none 5).1 ∧
    resultOk 5 (fixedWindowAllow 2 1000 1 (some ⟨2, 0⟩) 5).1 ∧
    resultOk 5 (fixedWindowScript 2 1000 1 (fun _ => 2) 5).1 ∧
    resultOk 5 (slidingWindowLogAllow 2 1000 1 [1, 2, 3] 5).1 ∧
    resultOk 5 (slidingLogScript 2 1000 1 [1, 2, 3] 5).1 ∧
    resultOk 5 (slidingWindowCounterAllow 2 1000 1 (some ⟨0, 2, 0⟩) 5).1 ∧
    resultOk 5 (slidingCounterScript 2 1000 1 (fun _ => 2) 5).1 :=
  ⟨C5_retry_iff_allowed_and_reset_bound.1 10 5 1 none 5
     (by norm_num) (by norm_num) (by norm_num),
   C5_retry_iff_allowed_and_reset_bound.2.1 10 5 1 (some ⟨0, 9⟩) 5
     (by norm_num) (by norm_num) (by norm_num),
   C5_retry_iff_allowed_and_reset_bound.2.2.1 10 5 1 (some ⟨4, 2⟩) 5
     (by norm_num) (by norm_num) (by norm_num),
   C5_retry_iff_allowed_and_reset_bound.2.2.2.1 10 5 1 none 5
     (by norm_num) (by norm_num) (by norm_num),
   C5_retry_iff_allowed_and_reset_bound.2.2.2.2.1 2 1000 1 (some ⟨2, 0⟩) 5
     (by norm_num) (by norm_num) (by norm_num),
   C5_retry_iff_allowed_and_reset_bound.2.2.2.2.2.1 2 1000 1 (fun _ => 2) 5
     (by norm_num) (by norm_num) (by norm_num),
   C5_retry_iff_allowed_and_reset_bound.2.2.2.2.2.2.1 2 1000 1 [1, 2, 3] 5
     (by norm_num) (by norm_num) (by norm_num),
   C5_retry_iff_allowed_and_reset_bound.2.2.2.2.2.2.2.1 2 1000 1 [1, 2, 3] 5
     (by norm_num) (by norm_num) (by norm_num)
     (by intro ts h; simp only [List.mem_cons, List.not_mem_nil, or_false] at h; rcases h with h | h | h <;> omega),
   C5_retry_iff_allowed_and_reset_bound.2.2.2.2.2.2.2.2.1 2 1000 1 (some ⟨0, 2, 0⟩) 5
     (by norm_num) (by norm_num) (by norm_num),
   C5_retry_iff_allowed_and_reset_bound.2.2.2.2.2.2.2.2.2 2 1000 1 (fun _ => 2) 5
     (by norm_num) (by norm_num) (by norm_num)⟩

theorem fw_reset_iff (windowMs start nowMs k : ℤ) (hw : 0 < windowMs)
    (hk : start = windowMs * k) (h0 : 0 ≤ start) (hle : start ≤ nowMs) :
    windowMs ≤ nowMs - start ↔ start ≠ nowMs - Int.tmod nowMs windowMs := by
  have hnow : 0 ≤ nowMs := le_trans h0 hle
  rw [Int.tmod_eq_emod hnow hw.le]
  have hdef : nowMs - nowMs % windowMs = windowMs * (nowMs / windowMs) := by
    rw [Int.emod_def]; ring
  rw [hdef]
  have hql : windowMs * (nowMs / windowMs) ≤ nowMs := by
    have h := Int.ediv_mul_le nowMs (ne_of_gt hw)
    linarith [h]
  have hqu : nowMs < windowMs * (nowMs / windowMs) + windowMs := by
    have h := Int.lt_ediv_add_one_mul_self nowMs hw
    nlinarith [h]
  constructor
  · intro h heq
    rw [← heq] at hqu
    omega
  · intro hne
    rcases lt_trichotomy k (nowMs / windowMs) with hlt | heq2 | hgt
    · have hstep : windowMs * (k + 1) ≤ windowMs * (nowMs / windowMs) :=
        mul_le_mul_of_nonneg_left (by omega) hw.le
      rw [hk]
      nlinarith [hstep, hql]
    · rw [hk, heq2] at hne
      exact absurd rfl hne
    · have hstep : windowMs * (nowMs / windowMs + 1) ≤ windowMs * k :=
        mul_le_mul_of_nonneg_left (by omega) hw.le
      rw [hk] at hle
      nlinarith [hstep, hle, hqu]

/-- C7 counterexample: from a fresh key, a call at `t = 1000`
(window 1000 ms, limit 10, cost 1) installs `window_start = 1000`; a
second call at `t = 999` finds the stored alignment (1000) different
from the recomputed alignment `999 − (999 mod 1000) = 0`, yet the code
keeps the window and its count (storing count 2) because its reset test
is `now − window_start ≥ window_ms`, not an alignment comparison. -/
theorem C7_counterexample :
    runStates (fixedWindowAllow 10 1000 1) none [1000, 999]
      = [some ⟨1, 1000⟩, some ⟨2, 1000⟩] ∧
    (1000 : ℤ) ≠ 999 - Int.tmod 999 1000 := by
  with_unfolding_all decide

/-- C7 (amended): when the clock does not run backwards past the stored
window start (`window_start ≤ now`, with the stored start aligned and
nonnegative, as every state reached under nonnegative non-decreasing
clocks is), the local fixed window keeps the stored count exactly when
the stored `window_start` equals `now − (now mod window_ms)`, and
installs a fresh window with count 0 (before the admit test) exactly
when they differ. -/
theorem C7_reset_iff_alignment_differs (limit windowMs cost : ℤ) (s : FixedWindowState)
    (nowMs k : ℤ) (hl : 0 < limit) (hw : 0 < windowMs) (hc : 0 < cost)
    (hk : s.windowStartMs = windowMs * k) (h0 : 0 ≤ s.windowStartMs)
    (hle : s.windowStartMs ≤ nowMs) :
    (s.windowStartMs = nowMs - Int.tmod nowMs windowMs →
      (fixedWindowAllow limit windowMs cost (some s) nowMs).2
        = some ⟨if s.count + cost ≤ limit then s.count + cost else s.count,
            s.windowStartMs⟩) ∧
    (s.windowStartMs ≠ nowMs - Int.tmod nowMs windowMs →
      (fixedWindowAllow limit windowMs cost (some s) nowMs).2
        = some ⟨if cost ≤ limit then cost else 0, nowMs - Int.tmod nowMs windowMs⟩) := by
  have hg : ¬ (limit ≤ 0 ∨ windowMs ≤ 0 ∨ cost ≤ 0) := by push_neg; exact ⟨hl, hw, hc⟩
  have hiff := fw_reset_iff windowMs s.windowStartMs nowMs k hw hk h0 hle
  constructor
  · intro heq
    have hkeep : ¬ (windowMs ≤ nowMs - s.windowStartMs) := by
      rw [hiff]
      exact fun hne => hne heq
    simp only [fixedWindowAllow, if_neg hg, if_neg hkeep]
  · intro hne
    have hreset : windowMs ≤ nowMs - s.windowStartMs := hiff.mpr hne
    simp only [fixedWindowAllow, if_neg hg, if_pos hreset, zero_add]

/-- C7 witness: with stored state `{count = 1, window_start = 1000}`
(window 1000 ms, limit 10, cost 1): a call at `t = 1500` (equal
alignments) keeps the window and counts to 2; a call at `t = 2500`
(alignment 2000 differs) installs the fresh window with the admitted
cost. -/
theorem C7_witness :
    (fixedWindowAllow 10 1000 1 (some ⟨1, 1000⟩) 1500).2 = some ⟨2, 1000⟩ ∧
    (fixedWindowAllow 10 1000 1 (some ⟨1, 1000⟩) 2500).2 = some ⟨1, 2000⟩ := by
  constructor
  · have h := (C7_reset_iff_alignment_differs 10 1000 1 ⟨1, 1000⟩ 1500 1
      (by norm_num) (by norm_num) (by norm_num) (by norm_num) (by norm_num)
      (by norm_num)).1 (by decide)
    rw [h]
    decide
  · have h := (C7_reset_iff_alignment_differs 10 1000 1 ⟨1, 1000⟩ 2500 1
      (by norm_num) (by norm_num) (by norm_num) (by norm_num) (by norm_num)
      (by norm_num)).2 (by decide)
    rw [h]
    decide

theorem tb_form_bound (capacity cost : ℤ) (M : ℚ) (n : ℤ) (hM : 0 ≤ M) :
    0 ≤ ⌊if (cost : ℚ) ≤ M then M - (cost : ℚ) else M⌋ ∧
    (∀ s ∈ some (⟨if (cost : ℚ) ≤ M then M - (cost : ℚ) else M, n⟩ : TokenBucketState),
      0 ≤ s.tokens ∧ s.lastMs ≤ n) := by
  have h2 : (0 : ℚ) ≤ if (cost : ℚ) ≤ M then M - (cost : ℚ) else M := by
    by_cases hc : (cost : ℚ) ≤ M
    · rw [if_pos hc]
      have : (0 : ℚ) ≤ M - (cost : ℚ) := by linarith
      linarith
    · rw [if_neg hc]; exact hM
  refine ⟨Int.floor_nonneg.mpr h2, ?_⟩
  intro s hs
  rw [Option.mem_def, Option.some_inj] at hs
  subst hs
  exact ⟨h2, le_refl n⟩

theorem tokenBucketAllow_remaining_step (capacity : ℤ) (refillPerSec : ℚ) (cost : ℤ)
    (hcap : 0 < capacity) (href : 0 < refillPerSec) (hcost : 0 < cost)
    (st : Option TokenBucketState) (n : ℤ)
    (hR : ∀ s ∈ st, 0 ≤ s.tokens ∧ s.lastMs ≤ n) :
    0 ≤ (tokenBucketAllow capacity refillPerSec cost st n).1.remaining ∧
    (∀ s ∈ (tokenBucketAllow capacity refillPerSec cost st n).2,
      0 ≤ s.tokens ∧ s.lastMs ≤ n) := by
  have hg : ¬ (capacity ≤ 0 ∨ refillPerSec ≤ 0 ∨ cost ≤ 0) := by
    push_neg; exact ⟨hcap, href, hcost⟩
  have hcapq : (0 : ℚ) ≤ (capacity : ℚ) := by exact_mod_cast hcap.le
  rcases st with _ | s
  · simp only [tokenBucketAllow, if_neg hg, Option.getD_none]
    exact tb_form_bound capacity cost _ n
      (le_min hcapq (by simpa using hcap.le))
  · obtain ⟨hs0, hsl⟩ := hR s (Option.mem_def.mpr rfl)
    simp only [tokenBucketAllow, if_neg hg, Option.getD_some]
    refine tb_form_bound capacity cost _ n (le_min hcapq ?_)
    have helq : (0 : ℚ) ≤ ((n - s.lastMs : ℤ) : ℚ) := by
      exact_mod_cast sub_nonneg.mpr hsl
    have : (0 : ℚ) ≤ ((n - s.lastMs : ℤ) : ℚ) / 1000 * refillPerSec :=
      mul_nonneg (div_nonneg helq (by norm_num)) href.le
    linarith

theorem lb_form_bound (capacity cost : ℤ) (W : ℚ) (n : ℤ)
    (hW0 : 0 ≤ W) (hWc : W ≤ (capacity : ℚ)) (hcost : 0 < cost) :
    0 ≤ ⌊(capacity : ℚ) - if W + (cost : ℚ) ≤ (capacity : ℚ) then W + (cost : ℚ) else W⌋ ∧
    (∀ s ∈ some (⟨if W + (cost : ℚ) ≤ (capacity : ℚ) then W + (cost : ℚ) else W, n⟩ :
        LeakyBucketState),
      0 ≤ s.water ∧ s.water ≤ (capacity : ℚ) ∧ s.lastMs ≤ n) := by
  have hcq : (0 : ℚ) < (cost : ℚ) := by exact_mod_cast hcost
  have h2 : (0 : ℚ) ≤ (if W + (cost : ℚ) ≤ (capacity : ℚ) then W + (cost : ℚ) else W) ∧
      (if W + (cost : ℚ) ≤ (capacity : ℚ) then W + (cost : ℚ) else W) ≤ (capacity : ℚ) := by
    by_cases hc : W + (cost : ℚ) ≤ (capacity : ℚ)
    · rw [if_pos hc]; exact ⟨by linarith, hc⟩
    · rw [if_neg hc]; exact ⟨hW0, hWc⟩
  refine ⟨Int.floor_nonneg.mpr (by linarith [h2.2]), ?_⟩
  intro s hs
  rw [Option.mem_def, Option.some_inj] at hs
  subst hs
  exact ⟨h2.1, h2.2, le_refl n⟩

theorem leakyBucketAllow_remaining_step (capacity : ℤ) (leakPerSec : ℚ) (cost : ℤ)
    (hcap : 0 < capacity) (hleak : 0 < leakPerSec) (hcost : 0 < cost)
    (st : Option LeakyBucketState) (n : ℤ)
    (hR : ∀ s ∈ st, 0 ≤ s.water ∧ s.water ≤ (capacity : ℚ) ∧ s.lastMs ≤ n) :
    0 ≤ (leakyBucketAllow capacity leakPerSec cost st n).1.remaining ∧
    (∀ s ∈ (leakyBucketAllow capacity leakPerSec cost st n).2,
      0 ≤ s.water ∧ s.water ≤ (capacity : ℚ) ∧ s.lastMs ≤ n) := by
  have hg : ¬ (capacity ≤ 0 ∨ leakPerSec ≤ 0 ∨ cost ≤ 0) := by
    push_neg; exact ⟨hcap, hleak, hcost⟩
  have hcapq : (0 : ℚ) ≤ (capacity : ℚ) := by exact_mod_cast hcap.le
  rcases st with _ | s
  · simp only [leakyBucketAllow, if_neg hg, Option.getD_none]
    exact lb_form_bound capacity cost _ n (le_max_left _ _)
      (max_le hcapq (by simp [hcapq])) hcost
  · obtain ⟨hs0, hsc, hsl⟩ := hR s (Option.mem_def.mpr rfl)
    simp only [leakyBucketAllow, if_neg hg, Option.getD_some]
    refine lb_form_bound capacity cost _ n (le_max_left _ _) (max_le hcapq ?_) hcost
    have helq : (0 : ℚ) ≤ ((n - s.lastMs : ℤ) : ℚ) := by
      exact_mod_cast sub_nonneg.mpr hsl
    have : (0 : ℚ) ≤ ((n - s.lastMs : ℤ) : ℚ) / 1000 * leakPerSec :=
      mul_nonneg (div_nonneg helq (by norm_num)) hleak.le
    linarith

theorem fw_form_bound (limit windowMs cost cnt start : ℤ)
    (h0 : 0 ≤ cnt) (h1 : cnt ≤ limit) (hcost : 0 < cost) :
    0 ≤ limit - (if cnt + cost ≤ limit then cnt + cost else cnt) ∧
    (∀ s ∈ some (⟨if cnt + cost ≤ limit then cnt + cost else cnt, start⟩ : FixedWindowState),
      0 ≤ s.count ∧ s.count ≤ limit) := by
  have h2 : 0 ≤ (if cnt + cost ≤ limit then cnt + cost else cnt) ∧
      (if cnt + cost ≤ limit then cnt + cost else cnt) ≤ limit := by
    by_cases hc : cnt + cost ≤ limit
    · rw [if_pos hc]; omega
    · rw [if_neg hc]; omega
  obtain ⟨h2a, h2b⟩ := h2
  refine ⟨by omega, ?_⟩
  intro s hs
  rw [Option.mem_def, Option.some_inj] at hs
  subst hs
  exact ⟨h2a, h2b⟩

theorem fixedWindowAllow_remaining_step (limit windowMs cost : ℤ)
    (hl : 0 < limit) (hw : 0 < windowMs) (hc : 0 < cost)
    (st : Option FixedWindowState) (n : ℤ)
    (hR : ∀ s ∈ st, 0 ≤ s.count ∧ s.count ≤ limit) :
    0 ≤ (fixedWindowAllow limit windowMs cost st n).1.remaining ∧
    (∀ s ∈ (fixedWindowAllow limit windowMs cost st n).2,
      0 ≤ s.count ∧ s.count ≤ limit) := by
  have hg : ¬ (limit ≤ 0 ∨ windowMs ≤ 0 ∨ cost ≤ 0) := by push_neg; exact ⟨hl, hw, hc⟩
  rcases st with _ | s
  · simp only [fixedWindowAllow, if_neg hg]
    exact fw_form_bound limit windowMs cost 0 _ (le_refl 0) hl.le hc
  · obtain ⟨hs0, hs1⟩ := hR s (Option.mem_def.mpr rfl)
    by_cases hr : windowMs ≤ n - s.windowStartMs
    · simp only [fixedWindowAllow, if_neg hg, if_pos hr]
      exact fw_form_bound limit windowMs cost 0 _ (le_refl 0) hl.le hc
    · simp only [fixedWindowAllow, if_neg hg, if_neg hr]
      exact fw_form_bound limit windowMs cost s.count _ hs0 hs1 hc

theorem slidingWindowLogAllow_remaining_step (limit windowMs cost : ℤ)
    (hl : 0 < limit) (hw : 0 < windowMs) (hc : 0 < cost)
    (logs : List ℤ) (n : ℤ)
    (hR : (logs.length : ℤ) ≤ limit) :
    0 ≤ (slidingWindowLogAllow limit windowMs cost logs n).1.remaining ∧
    ((((slidingWindowLogAllow limit windowMs cost logs n).2).length : ℤ) ≤ limit) := by
  have hg : ¬ (limit ≤ 0 ∨ windowMs ≤ 0 ∨ cost ≤ 0) := by push_neg; exact ⟨hl, hw, hc⟩
  have hkle : ((logs.filter (fun ts => decide (n - windowMs < ts))).length : ℤ)
      ≤ (logs.length : ℤ) := by
    exact_mod_cast List.length_filter_le _ _
  simp only [slidingWindowLogAllow, if_neg hg]
  by_cases hadm : ((logs.filter (fun ts => decide (n - windowMs < ts))).length : ℤ)
      + cost ≤ limit
  · rw [if_pos hadm]
    have hlen : (((logs.filter (fun ts => decide (n - windowMs < ts))
        ++ List.replicate cost.toNat n).length) : ℤ)
        = ((logs.filter (fun ts => decide (n - windowMs < ts))).length : ℤ) + cost := by
      rw [List.length_append, List.length_replicate]
      push_cast
      rw [Int.toNat_of_nonneg hc.le]
    constructor
    · rw [hlen]; omega
    · rw [hlen]; omega
  · rw [if_neg hadm]
    constructor
    · omega
    · omega

theorem slidingWindowCounterAllow_remaining_step (limit windowMs cost : ℤ)
    (hl : 0 < limit) (hw : 0 < windowMs) (hc : 0 < cost)
    (st : Option SlidingCounterState) (n : ℤ) :
    0 ≤ (slidingWindowCounterAllow limit windowMs cost st n).1.remaining := by
  have hg : ¬ (limit ≤ 0 ∨ windowMs ≤ 0 ∨ cost ≤ 0) := by push_neg; exact ⟨hl, hw, hc⟩
  simp only [slidingWindowCounterAllow, if_neg hg]
  exact Int.floor_nonneg.mpr (le_max_left _ _)

theorem tokenBucketScript_eq_local (capacity : ℤ) (refillPerSec : ℚ) (cost : ℤ)
    (st : Option TokenBucketState) (n : ℤ)
    (h : ∀ s ∈ st, s.lastMs ≤ n) :
    tokenBucketScript capacity refillPerSec cost st n
      = tokenBucketAllow capacity refillPerSec cost st n := by
  by_cases hg : capacity ≤ 0 ∨ refillPerSec ≤ 0 ∨ cost ≤ 0
  · rw [tokenBucketScript_guard _ _ _ _ _ hg, tokenBucketAllow_guard _ _ _ _ _ hg]
  · rcases st with _ | s
    · simp only [tokenBucketScript, tokenBucketAllow, if_neg hg, Option.getD_none,
        if_neg (lt_irrefl n)]
    · have hle := h s (Option.mem_def.mpr rfl)
      simp only [tokenBucketScript, tokenBucketAllow, if_neg hg, Option.getD_some,
        if_neg (not_lt.mpr hle)]

theorem tokenBucketAllow_last_step (capacity : ℤ) (refillPerSec : ℚ) (cost : ℤ)
    (st : Option TokenBucketState) (n : ℤ)
    (h : ∀ s ∈ st, s.lastMs ≤ n) :
    ∀ s ∈ (tokenBucketAllow capacity refillPerSec cost st n).2, s.lastMs ≤ n := by
  by_cases hg : capacity ≤ 0 ∨ refillPerSec ≤ 0 ∨ cost ≤ 0
  · rw [tokenBucketAllow_guard _ _ _ _ _ hg]
    exact h
  · simp only [tokenBucketAllow, if_neg hg]
    intro s hs
    rw [Option.mem_def, Option.some_inj] at hs
    subst hs
    exact le_refl n

theorem leakyBucketScript_eq_local (capacity : ℤ) (leakPerSec : ℚ) (cost : ℤ)
    (st : Option LeakyBucketState) (n : ℤ)
    (h : ∀ s ∈ st, s.lastMs ≤ n) :
    leakyBucketScript capacity leakPerSec cost st n
      = leakyBucketAllow capacity leakPerSec cost st n := by
  by_cases hg : capacity ≤ 0 ∨ leakPerSec ≤ 0 ∨ cost ≤ 0
  · rw [leakyBucketScript_guard _ _ _ _ _ hg, leakyBucketAllow_guard _ _ _ _ _ hg]
  · rcases st with _ | s
    · simp only [leakyBucketScript, leakyBucketAllow, if_neg hg, Option.getD_none,
        if_neg (lt_irrefl n)]
    · have hle := h s (Option.mem_def.mpr rfl)
      simp only [leakyBucketScript, leakyBucketAllow, if_neg hg, Option.getD_some,
        if_neg (not_lt.mpr hle)]

theorem leakyBucketAllow_last_step (capacity : ℤ) (leakPerSec : ℚ) (cost : ℤ)
    (st : Option LeakyBucketState) (n : ℤ)
    (h : ∀ s ∈ st, s.lastMs ≤ n) :
    ∀ s ∈ (leakyBucketAllow capacity leakPerSec cost st n).2, s.lastMs ≤ n := by
  by_cases hg : capacity ≤ 0 ∨ leakPerSec ≤ 0 ∨ cost ≤ 0
  · rw [leakyBucketAllow_guard _ _ _ _ _ hg]
    exact h
  · simp only [leakyBucketAllow, if_neg hg]
    intro s hs
    rw [Option.mem_def, Option.some_inj] at hs
    subst hs
    exact le_refl n

/-- Folding `min` over a list bounded below by the seed returns the seed. -/
theorem foldl_min_eq_self (t : ℤ) (l : List ℤ) (h : ∀ x ∈ l, t ≤ x) :
    l.foldl min t = t := by
  induction l generalizing t with
  | nil => rfl
  | cons a as ih =>
    rw [List.foldl_cons, min_eq_left (h a (List.mem_cons_self a as))]
    exact ih t (fun x hx => h x (List.mem_cons_of_mem a hx))

/-- The least element of a list whose head bounds the tail is the head. -/
theorem min_of_forall_le (t : ℤ) (l : List ℤ) (h : ∀ x ∈ l, t ≤ x) :
    (t :: l).min? = some t := by
  show some (l.foldl min t) = some t
  rw [foldl_min_eq_self t l h]

/-- One local sliding-log step preserves sortedness and the timestamp
bounds `0 ≤ t ≤ n` of the stored log. -/
theorem slidingWindowLogAllow_sorted_step (limit windowMs cost : ℤ)
    (logs : List ℤ) (n : ℤ)
    (hp : List.Pairwise (· ≤ ·) logs) (hb : ∀ t ∈ logs, 0 ≤ t ∧ t ≤ n) (hn : 0 ≤ n) :
    List.Pairwise (· ≤ ·) (slidingWindowLogAllow limit windowMs cost logs n).2 ∧
    (∀ t ∈ (slidingWindowLogAllow limit windowMs cost logs n).2, 0 ≤ t ∧ t ≤ n) := by
  by_cases hg : limit ≤ 0 ∨ windowMs ≤ 0 ∨ cost ≤ 0
  · rw [slidingWindowLogAllow_guard _ _ _ _ _ hg]
    exact ⟨hp, hb⟩
  · simp only [slidingWindowLogAllow, if_neg hg]
    by_cases hadm : ((logs.filter (fun ts => decide (n - windowMs < ts))).length : ℤ)
        + cost ≤ limit
    · rw [if_pos hadm]
      constructor
      · rw [List.pairwise_append]
        refine ⟨List.Pairwise.filter _ hp, List.pairwise_replicate.mpr (Or.inr le_rfl), ?_⟩
        intro a ha b hbm
        rw [List.eq_of_mem_replicate hbm]
        exact (hb a (List.mem_of_mem_filter ha)).2
      · intro t ht
        rcases List.mem_append.mp ht with ht | ht
        · exact hb t (List.mem_of_mem_filter ht)
        · rw [List.eq_of_mem_replicate ht]
          exact ⟨hn, le_refl n⟩
    · rw [if_neg hadm]
      exact ⟨List.Pairwise.filter _ hp, fun t ht => hb t (List.mem_of_mem_filter ht)⟩

/-- On a sorted log of timestamps in `[0, n]`, the remote sliding-log
script produces exactly the local backend's Result and state: the two
prune predicates keep the same elements, and the minimum of the kept
sorted set is its head. -/
theorem slidingLogScript_eq_local (limit windowMs cost : ℤ)
    (logs : List ℤ) (n : ℤ)
    (hp : List.Pairwise (· ≤ ·) logs) (hb : ∀ t ∈ logs, 0 ≤ t ∧ t ≤ n) :
    slidingLogScript limit windowMs cost logs n
      = slidingWindowLogAllow limit windowMs cost logs n := by
  by_cases hg : limit ≤ 0 ∨ windowMs ≤ 0 ∨ cost ≤ 0
  · rw [slidingLogScript_guard _ _ _ _ _ hg, slidingWindowLogAllow_guard _ _ _ _ _ hg]
  · have hc : 0 < cost := by
      push_neg at hg
      exact hg.2.2
    have hfeq : logs.filter (fun ts => decide (¬ (0 ≤ ts ∧ ts ≤ n - windowMs)))
        = logs.filter (fun ts => decide (n - windowMs < ts)) := by
      apply List.filter_congr
      intro t ht
      have h0 := (hb t ht).1
      simp only [decide_eq_decide]
      omega
    have htoNat : ((cost.toNat : ℤ)) = cost := Int.toNat_of_nonneg hc.le
    simp only [slidingLogScript, slidingWindowLogAllow, if_neg hg, hfeq]
    by_cases hadm : ((logs.filter (fun ts => decide (n - windowMs < ts))).length : ℤ)
        + cost ≤ limit
    · simp only [if_pos hadm]
      rw [if_pos (by positivity :
          (0 : ℤ) < ((logs.filter (fun ts => decide (n - windowMs < ts))).length : ℤ) + cost)]
      cases hK : logs.filter (fun ts => decide (n - windowMs < ts)) with
      | nil =>
        obtain ⟨n', hn'⟩ : ∃ n', cost.toNat = n' + 1 := ⟨cost.toNat - 1, by omega⟩
        simp only [List.nil_append, hn', List.replicate_succ, List.head?_cons,
          Option.getD_some,
          min_of_forall_le n (List.replicate n' n)
            (fun x hx => le_of_eq (List.eq_of_mem_replicate hx).symm)]
        simp only [Prod.mk.injEq, Result.mk.injEq, and_true, true_and, eq_self_iff_true]
        push_cast [List.length_cons, List.length_replicate, List.length_nil]
        omega
      | cons t r =>
        have hpK : List.Pairwise (· ≤ ·) (t :: r) := by
          rw [← hK]
          exact List.Pairwise.filter _ hp
        have htn : t ≤ n := by
          have htmem : t ∈ logs.filter (fun ts => decide (n - windowMs < ts)) := by
            rw [hK]
            exact List.mem_cons_self t r
          exact (hb t (List.mem_of_mem_filter htmem)).2
        have hmin : ∀ x ∈ r ++ List.replicate cost.toNat n, t ≤ x := by
          intro x hx
          rcases List.mem_append.mp hx with hx | hx
          · exact (List.pairwise_cons.mp hpK).1 x hx
          · rw [List.eq_of_mem_replicate hx]
            exact htn
        simp only [List.cons_append, List.head?_cons, Option.getD_some,
          min_of_forall_le t (r ++ List.replicate cost.toNat n) hmin]
        simp only [Prod.mk.injEq, Result.mk.injEq, and_true, true_and, eq_self_iff_true]
        push_cast [List.length_cons, List.length_append, List.length_replicate]
        omega
    · simp only [if_neg hadm]
      cases hK : logs.filter (fun ts => decide (n - windowMs < ts)) with
      | nil =>
        rw [if_neg (by simp : ¬ (0 : ℤ) < (([] : List ℤ).length : ℤ))]
        rfl
      | cons t r =>
        have hpK : List.Pairwise (· ≤ ·) (t :: r) := by
          rw [← hK]
          exact List.Pairwise.filter _ hp
        rw [if_pos (by simp : (0 : ℤ) < ((t :: r).length : ℤ)),
          min_of_forall_le t r (List.pairwise_cons.mp hpK).1]
        rfl

/-- The remote token-bucket step emits nonnegative remaining and
preserves the bucket invariant, by agreement with the local step on
states whose stored clock does not exceed the reading. -/
theorem tokenBucketScript_remaining_step (capacity : ℤ) (refillPerSec : ℚ) (cost : ℤ)
    (hcap : 0 < capacity) (href : 0 < refillPerSec) (hcost : 0 < cost)
    (st : Option TokenBucketState) (n : ℤ)
    (hR : ∀ s ∈ st, 0 ≤ s.tokens ∧ s.lastMs ≤ n) :
    0 ≤ (tokenBucketScript capacity refillPerSec cost st n).1.remaining ∧
    (∀ s ∈ (tokenBucketScript capacity refillPerSec cost st n).2,
      0 ≤ s.tokens ∧ s.lastMs ≤ n) := by
  rw [tokenBucketScript_eq_local capacity refillPerSec cost st n (fun s hs => (hR s hs).2)]
  exact tokenBucketAllow_remaining_step capacity refillPerSec cost hcap href hcost st n hR

/-- The remote leaky-bucket step emits nonnegative remaining and
preserves the bucket invariant, by agreement with the local step. -/
theorem leakyBucketScript_remaining_step (capacity : ℤ) (leakPerSec : ℚ) (cost : ℤ)
    (hcap : 0 < capacity) (hleak : 0 < leakPerSec) (hcost : 0 < cost)
    (st : Option LeakyBucketState) (n : ℤ)
    (hR : ∀ s ∈ st, 0 ≤ s.water ∧ s.water ≤ (capacity : ℚ) ∧ s.lastMs ≤ n) :
    0 ≤ (leakyBucketScript capacity leakPerSec cost st n).1.remaining ∧
    (∀ s ∈ (leakyBucketScript capacity leakPerSec cost st n).2,
      0 ≤ s.water ∧ s.water ≤ (capacity : ℚ) ∧ s.lastMs ≤ n) := by
  rw [leakyBucketScript_eq_local capacity leakPerSec cost st n (fun s hs => (hR s hs).2.2)]
  exact leakyBucketAllow_remaining_step capacity leakPerSec cost hcap hleak hcost st n hR

/-- The remote sliding-log step emits nonnegative remaining and keeps
the stored set's size at most the limit. -/
theorem slidingLogScript_remaining_step (limit windowMs cost : ℤ)
    (hl : 0 < limit) (hw : 0 < windowMs) (hc : 0 < cost)
    (scores : List ℤ) (n : ℤ)
    (hR : (scores.length : ℤ) ≤ limit) :
    0 ≤ (slidingLogScript limit windowMs cost scores n).1.remaining ∧
    ((((slidingLogScript limit windowMs cost scores n).2).length : ℤ) ≤ limit) := by
  have hg : ¬ (limit ≤ 0 ∨ windowMs ≤ 0 ∨ cost ≤ 0) := by push_neg; exact ⟨hl, hw, hc⟩
  have hkle : ((scores.filter
      (fun ts => decide (¬ (0 ≤ ts ∧ ts ≤ n - windowMs)))).length : ℤ)
      ≤ (scores.length : ℤ) := by
    exact_mod_cast List.length_filter_le _ _
  simp only [slidingLogScript, if_neg hg]
  by_cases hadm : ((scores.filter
      (fun ts => decide (¬ (0 ≤ ts ∧ ts ≤ n - windowMs)))).length : ℤ) + cost ≤ limit
  · simp only [if_pos hadm]
    have hlen : (((scores.filter (fun ts => decide (¬ (0 ≤ ts ∧ ts ≤ n - windowMs)))
        ++ List.replicate cost.toNat n).length) : ℤ)
        = ((scores.filter
            (fun ts => decide (¬ (0 ≤ ts ∧ ts ≤ n - windowMs)))).length : ℤ) + cost := by
      rw [List.length_append, List.length_replicate]
      push_cast
      rw [Int.toNat_of_nonneg hc.le]
    exact ⟨by omega, by rw [hlen]; omega⟩
  · simp only [if_neg hadm]
    exact ⟨by omega, by omega⟩

/-- Aligned window starts are monotone in the clock. -/
theorem aligned_mono (w n n' : ℤ) (hw : 0 < w) (hle : n ≤ n') :
    n - n % w ≤ n' - n' % w := by
  have h1 : n - n % w = w * (n / w) := by rw [Int.emod_def]; ring
  have h2 : n' - n' % w = w * (n' / w) := by rw [Int.emod_def]; ring
  rw [h1, h2]
  exact mul_le_mul_of_nonneg_left (Int.ediv_le_ediv hw hle) hw.le

/-- The sliding-counter store invariant is monotone in the clock bound:
advancing the clock can only leave the written window or shrink the
weight of the previous window. -/
theorem scInv_mono (limit windowMs : ℤ) (hw : 0 < windowMs) (store : ℤ → ℤ) (n n' : ℤ)
    (h : scInv limit windowMs store n) (hle : n ≤ n') :
    scInv limit windowMs store n' := by
  obtain ⟨ha, hb, C, hkC, hCle, hfut, hcb⟩ := h
  refine ⟨ha, hb, C, hkC, le_trans hCle (aligned_mono windowMs n n' hw hle), hfut, ?_⟩
  intro heq'
  have h1 := aligned_mono windowMs n n' hw hle
  rw [heq'] at h1
  have hal : n - n % windowMs = C := le_antisymm h1 hCle
  have hbound := hcb hal
  have e1 : n % windowMs = n - C := by omega
  have e2 : n' % windowMs = n' - C := by omega
  have hwq : (0 : ℚ) < (windowMs : ℚ) := by exact_mod_cast hw
  have hnum : ((windowMs - n' % windowMs : ℤ) : ℚ) ≤ ((windowMs - n % windowMs : ℤ) : ℚ) := by
    have : windowMs - n' % windowMs ≤ windowMs - n % windowMs := by omega
    exact_mod_cast this
  have hmul : (store (C - windowMs) : ℚ)
        * (((windowMs - n' % windowMs : ℤ) : ℚ) / (windowMs : ℚ))
      ≤ (store (C - windowMs) : ℚ)
        * (((windowMs - n % windowMs : ℤ) : ℚ) / (windowMs : ℚ)) := by
    refine mul_le_mul_of_nonneg_left ?_ (by exact_mod_cast ha (C - windowMs))
    exact (div_le_div_iff_of_pos_right hwq).mpr hnum
  linarith

/-- The remote sliding-counter step emits nonnegative remaining and
preserves the store invariant: the weighted occupancy the script
computes is at most the limit on every reachable store. -/
theorem slidingCounterScript_remaining_step (limit windowMs cost : ℤ)
    (hl : 0 < limit) (hw : 0 < windowMs) (hc : 0 < cost)
    (store : ℤ → ℤ) (n : ℤ) (hR : scInv limit windowMs store n) :
    0 ≤ (slidingCounterScript limit windowMs cost store n).1.remaining ∧
    scInv limit windowMs (slidingCounterScript limit windowMs cost store n).2 n := by
  have hg : ¬ (limit ≤ 0 ∨ windowMs ≤ 0 ∨ cost ≤ 0) := by push_neg; exact ⟨hl, hw, hc⟩
  obtain ⟨ha, hb, C, ⟨k, hk⟩, hCle, hfut, hcb⟩ := hR
  have hm0 : 0 ≤ n % windowMs := Int.emod_nonneg n (ne_of_gt hw)
  have hm1 : n % windowMs < windowMs := Int.emod_lt_of_pos n hw
  have hAk : n - n % windowMs = windowMs * (n / windowMs) := by
    rw [Int.emod_def]; ring
  have hwq : (0 : ℚ) < (windowMs : ℚ) := by exact_mod_cast hw
  have hw0 : (0 : ℚ) ≤ ((windowMs - n % windowMs : ℤ) : ℚ) / (windowMs : ℚ) := by
    refine div_nonneg ?_ hwq.le
    exact_mod_cast (by omega : (0 : ℤ) ≤ windowMs - n % windowMs)
  have hw1 : ((windowMs - n % windowMs : ℤ) : ℚ) / (windowMs : ℚ) ≤ 1 := by
    rw [div_le_one hwq]
    exact_mod_cast (by omega : windowMs - n % windowMs ≤ windowMs)
  have hlq : (0 : ℚ) ≤ (limit : ℚ) := by exact_mod_cast hl.le
  have hcomb : (store (n - n % windowMs - windowMs) : ℚ)
        * (((windowMs - n % windowMs : ℤ) : ℚ) / (windowMs : ℚ))
      + (store (n - n % windowMs) : ℚ) ≤ (limit : ℚ) := by
    by_cases hAC : n - n % windowMs = C
    · rw [hAC]
      exact hcb hAC
    · have hlt : C < n - n % windowMs := lt_of_le_of_ne hCle (Ne.symm hAC)
      have hqk : k < n / windowMs := by
        have h1 : windowMs * k < windowMs * (n / windowMs) := by
          rw [← hk, ← hAk]; exact hlt
        exact lt_of_mul_lt_mul_left h1 hw.le
      have hCw : C + windowMs ≤ n - n % windowMs := by
        have h2 : windowMs * (k + 1) ≤ windowMs * (n / windowMs) :=
          mul_le_mul_of_nonneg_left (by omega) hw.le
        rw [hk, hAk]
        linarith [h2]
      have hcur0 : store (n - n % windowMs) = 0 := hfut _ (by omega)
      by_cases hprev : n - n % windowMs - windowMs = C
      · rw [hcur0, hprev]
        have h1 : (store C : ℚ) * (((windowMs - n % windowMs : ℤ) : ℚ) / (windowMs : ℚ))
            ≤ (store C : ℚ) :=
          mul_le_of_le_one_right (by exact_mod_cast ha C) hw1
        have h2 : (store C : ℚ) ≤ (limit : ℚ) := by exact_mod_cast hb C
        push_cast at h1 h2 ⊢
        linarith
      · rw [hcur0, hfut (n - n % windowMs - windowMs) (by omega)]
        push_cast
        simpa using hlq
  simp only [slidingCounterScript, if_neg hg]
  rw [show n - (n - n % windowMs) = n % windowMs from by ring]
  by_cases hadm : (store (n - n % windowMs - windowMs) : ℚ)
        * (((windowMs - n % windowMs : ℤ) : ℚ) / (windowMs : ℚ))
      + (store (n - n % windowMs) : ℚ) + (cost : ℚ) ≤ (limit : ℚ)
  · simp only [if_pos hadm]
    have hcur_le : (store (n - n % windowMs) : ℚ)
        ≤ (store (n - n % windowMs - windowMs) : ℚ)
          * (((windowMs - n % windowMs : ℤ) : ℚ) / (windowMs : ℚ))
        + (store (n - n % windowMs) : ℚ) := by
      have := mul_nonneg (show (0 : ℚ) ≤ (store (n - n % windowMs - windowMs) : ℚ) from
        by exact_mod_cast ha _) hw0
      linarith
    have hsum_le : store (n - n % windowMs) + cost ≤ limit := by
      have hq : ((store (n - n % windowMs) + cost : ℤ) : ℚ) ≤ (limit : ℚ) := by
        push_cast
        linarith
      exact_mod_cast hq
    refine ⟨Int.floor_nonneg.mpr (by linarith), ?_, ?_, n - n % windowMs,
      ⟨n / windowMs, hAk⟩, le_refl _, ?_, ?_⟩
    · intro j
      show (0 : ℤ) ≤ if j = n - n % windowMs then store (n - n % windowMs) + cost else store j
      by_cases hj : j = n - n % windowMs
      · rw [if_pos hj]
        have := ha (n - n % windowMs)
        omega
      · rw [if_neg hj]
        exact ha j
    · intro j
      show (if j = n - n % windowMs then store (n - n % windowMs) + cost else store j) ≤ limit
      by_cases hj : j = n - n % windowMs
      · rw [if_pos hj]
        exact hsum_le
      · rw [if_neg hj]
        exact hb j
    · intro j hj
      show (if j = n - n % windowMs then store (n - n % windowMs) + cost else store j) = 0
      rw [if_neg (by omega : ¬ j = n - n % windowMs)]
      rcases lt_or_le C j with hCj | hjC
      · exact hfut j hCj
      · exact absurd hj (not_lt.mpr (le_trans hjC hCle))
    · intro _
      show (((if n - n % windowMs - windowMs = n - n % windowMs
              then store (n - n % windowMs) + cost
              else store (n - n % windowMs - windowMs)) : ℤ) : ℚ)
          * (((windowMs - n % windowMs : ℤ) : ℚ) / (windowMs : ℚ))
        + (((if n - n % windowMs = n - n % windowMs
              then store (n - n % windowMs) + cost else store (n - n % windowMs)) : ℤ) : ℚ)
        ≤ (limit : ℚ)
      rw [if_neg (by omega : ¬ n - n % windowMs - windowMs = n - n % windowMs),
        if_pos rfl]
      push_cast at hadm ⊢
      linarith
  · simp only [if_neg hadm]
    exact ⟨Int.floor_nonneg.mpr (by linarith), ha, hb, C, ⟨k, hk⟩, hCle, hfut, hcb⟩

/-- The two sliding-counter backends genuinely diverge in their allowed
sequences: after two admits at `t = 0` (limit 2, window 1000 ms, cost 1),
a call at `t = 2200` is denied locally, because the rollover adopts the
stored current count 2 as the previous count although two full windows
have passed, while the remote script reads the untouched counter of the
window starting at 1000 ms and admits. -/
theorem slidingCounter_backends_differ :
    (runResults (slidingWindowCounterAllow 2 1000 1) none [0, 0, 2200]).map Result.allowed
      = [true, true, false] ∧
    (runResults (slidingCounterScript 2 1000 1) (fun _ => 0) [0, 0, 2200]).map Result.allowed
      = [true, true, true] := by
  constructor
  · with_unfolding_all decide
  · with_unfolding_all decide

theorem cost_mul_le_iff (limit cost : ℤ) (hc : 0 < cost) (x : ℤ) :
    cost * x ≤ limit ↔ x ≤ limit / cost := by
  rw [mul_comm]
  exact (Int.le_ediv_iff_mul_le hc).symm

theorem fw_fresh_count (limit cost : ℤ) (hl : 0 < limit) (hc : 0 < cost) :
    (if 0 + cost ≤ limit then 0 + cost else 0) = cost * min 1 (limit / cost) := by
  have h1 := cost_mul_le_iff limit cost hc 1
  have hA0 : 0 ≤ limit / cost := Int.ediv_nonneg hl.le hc.le
  by_cases hadm : 0 + cost ≤ limit
  · rw [if_pos hadm]
    have hA1 : 1 ≤ limit / cost := h1.mp (by omega)
    have : min (1 : ℤ) (limit / cost) = 1 := min_eq_left hA1
    rw [this]
    omega
  · rw [if_neg hadm]
    have hA1 : ¬ (1 ≤ limit / cost) := fun hcon => hadm (by
      have := h1.mpr hcon
      omega)
    have : min (1 : ℤ) (limit / cost) = limit / cost := min_eq_right (by omega)
    rw [this]
    have hA2 : limit / cost = 0 := by omega
    rw [hA2, mul_zero]

theorem fw_same_count (limit cost m : ℤ) (hc : 0 < cost) :
    ((cost * min m (limit / cost) + cost ≤ limit) ↔ (cost * m + cost ≤ limit)) ∧
    (if cost * min m (limit / cost) + cost ≤ limit then cost * min m (limit / cost) + cost
     else cost * min m (limit / cost)) = cost * min (m + 1) (limit / cost) := by
  have h1 := cost_mul_le_iff limit cost hc (min m (limit / cost) + 1)
  have h2 := cost_mul_le_iff limit cost hc (m + 1)
  have e1 : cost * min m (limit / cost) + cost = cost * (min m (limit / cost) + 1) := by ring
  have e2 : cost * m + cost = cost * (m + 1) := by ring
  have hiff : cost * min m (limit / cost) + cost ≤ limit ↔ cost * m + cost ≤ limit := by
    rw [e1, e2, h1, h2]
    omega
  refine ⟨hiff, ?_⟩
  rcases le_or_lt (m + 1) (limit / cost) with hle | hlt
  · have e3 : min m (limit / cost) = m := min_eq_left (by omega)
    have hadm : cost * min m (limit / cost) + cost ≤ limit := by
      rw [e1, h1, e3]
      omega
    rw [if_pos hadm, e3]
    have e4 : min (m + 1) (limit / cost) = m + 1 := min_eq_left hle
    rw [e4]
    ring
  · have e3 : min m (limit / cost) = limit / cost := min_eq_right (by omega)
    have hnadm : ¬ (cost * min m (limit / cost) + cost ≤ limit) := by
      rw [e1, h1, e3]
      omega
    rw [if_neg hnadm, e3]
    have e4 : min (m + 1) (limit / cost) = limit / cost := min_eq_right (by omega)
    rw [e4]

theorem fixedWindow_rel_step (limit windowMs cost : ℤ)
    (hl : 0 < limit) (hw : 0 < windowMs) (hc : 0 < cost)
    (st : Option FixedWindowState) (store : ℤ → ℤ) (n : ℤ)
    (hR : fwRel limit windowMs cost st store n) :
    (fixedWindowAllow limit windowMs cost st n).1.allowed
      = (fixedWindowScript limit windowMs cost store n).1.allowed ∧
    fwRel limit windowMs cost (fixedWindowAllow limit windowMs cost st n).2
      (fixedWindowScript limit windowMs cost store n).2 n := by
  have hg : ¬ (limit ≤ 0 ∨ windowMs ≤ 0 ∨ cost ≤ 0) := by push_neg; exact ⟨hl, hw, hc⟩
  obtain ⟨hn, hmatch⟩ := hR
  have hm0 : 0 ≤ n % windowMs := Int.emod_nonneg n (ne_of_gt hw)
  have hm1 : n % windowMs < windowMs := Int.emod_lt_of_pos n hw
  have htm : Int.tmod n windowMs = n % windowMs := Int.tmod_eq_emod hn hw.le
  have halk : n - n % windowMs = windowMs * (n / windowMs) := by
    rw [Int.emod_def]; ring
  have hq0 : 0 ≤ windowMs * (n / windowMs) :=
    mul_nonneg hw.le (Int.ediv_nonneg hn hw.le)
  rcases st with _ | s
  · simp only [fwRel] at hmatch
    simp only [fixedWindowAllow, fixedWindowScript, if_neg hg, htm,
      hmatch (n - n % windowMs)]
    refine ⟨by trivial, ?_⟩
    simp only [fwRel]
    refine ⟨hn, by linarith, by linarith, ⟨n / windowMs, halk⟩,
      ⟨1, le_refl 1, by simp, fw_fresh_count limit cost hl hc⟩, ?_⟩
    intro j hj
    have hne : ¬ j = n - n % windowMs := by omega
    simp only [if_neg hne]
    exact hmatch j
  · simp only [fwRel] at hmatch
    obtain ⟨h0s, hsn, ⟨k, hk⟩, ⟨m, hm1', hsm, hsc⟩, hfut⟩ := hmatch
    by_cases hreset : windowMs ≤ n - s.windowStartMs
    · have hgt : s.windowStartMs < n - n % windowMs := by omega
      have hstore_al : store (n - n % windowMs) = 0 := hfut _ hgt
      simp only [fixedWindowAllow, fixedWindowScript, if_neg hg, if_pos hreset, htm,
        hstore_al]
      refine ⟨by trivial, ?_⟩
      simp only [fwRel]
      refine ⟨hn, by linarith, by linarith, ⟨n / windowMs, halk⟩,
        ⟨1, le_refl 1, by simp, fw_fresh_count limit cost hl hc⟩, ?_⟩
      intro j hj
      have hne : ¬ j = n - n % windowMs := by omega
      simp only [if_neg hne]
      exact hfut j (lt_trans hgt hj)
    · have hiff := fw_reset_iff windowMs s.windowStartMs n k hw hk h0s hsn
      have heq : s.windowStartMs = n - Int.tmod n windowMs := by
        by_contra hne
        exact hreset (hiff.mpr hne)
      rw [htm] at heq
      simp only [fixedWindowAllow, fixedWindowScript, if_neg hg, if_neg hreset, htm]
      rw [← heq, hsm, hsc]
      refine ⟨decide_eq_decide.mpr (fw_same_count limit cost m hc).1, ?_⟩
      simp only [fwRel]
      refine ⟨hn, h0s, hsn, ⟨k, hk⟩, ⟨m + 1, by omega, ?_, ?_⟩, ?_⟩
      · simp only [eq_self_iff_true, if_true]
        ring
      · exact (fw_same_count limit cost m hc).2
      · intro j hj
        have hne : ¬ j = s.windowStartMs := by omega
        simp only [if_neg hne]
        exact hfut j hj

theorem fwRel_mono (limit windowMs cost : ℤ) (st : Option FixedWindowState)
    (store : ℤ → ℤ) (n n' : ℤ)
    (h : fwRel limit windowMs cost st store n) (hle : n ≤ n') :
    fwRel limit windowMs cost st store n' := by
  obtain ⟨hn, hm⟩ := h
  refine ⟨le_trans hn hle, ?_⟩
  rcases st with _ | s
  · exact hm
  · obtain ⟨h1, h2, h3, h4, h5⟩ := hm
    exact ⟨h1, le_trans h2 hle, h3, h4, h5⟩

/-- C1 (amended): for single-client workloads with identical keys, fixed
parameters and identical non-decreasing clock readings, the local and
remote token-bucket and leaky-bucket operations produce bit-identical
Result sequences; with nonnegative clock readings, so do the local and
remote sliding-window-log operations; and the local and remote
fixed-window operations produce identical `allowed` sequences.  The
original claim of bit-identical Results for all five algorithms fails:
the fixed-window backends differ in `remaining` and `current_count` on
denial (see the counterexample), and the sliding-window-counter backends
can even differ in `allowed`, since the local rollover adopts the stored
current count as the previous count however many windows have passed
(see `slidingCounter_backends_differ`). -/
theorem C1_amended_equivalences :
    (∀ (capacity : ℤ) (refillPerSec : ℚ) (cost : ℤ) (n0 : ℤ) (nows : List ℤ),
      List.Chain (· ≤ ·) n0 nows →
      runResults (tokenBucketAllow capacity refillPerSec cost) none nows
        = runResults (tokenBucketScript capacity refillPerSec cost) none nows) ∧
    (∀ (capacity : ℤ) (leakPerSec : ℚ) (cost : ℤ) (n0 : ℤ) (nows : List ℤ),
      List.Chain (· ≤ ·) n0 nows →
      runResults (leakyBucketAllow capacity leakPerSec cost) none nows
        = runResults (leakyBucketScript capacity leakPerSec cost) none nows) ∧
    (∀ (limit windowMs cost : ℤ) (n0 : ℤ) (nows : List ℤ),
      0 ≤ n0 → List.Chain (· ≤ ·) n0 nows →
      runResults (slidingWindowLogAllow limit windowMs cost) [] nows
        = runResults (slidingLogScript limit windowMs cost) [] nows) ∧
    (∀ (limit windowMs cost : ℤ) (n0 : ℤ) (nows : List ℤ),
      0 < limit → 0 < windowMs → 0 < cost → 0 ≤ n0 → List.Chain (· ≤ ·) n0 nows →
      List.Forall₂ (fun r1 r2 => r1.allowed = r2.allowed)
        (runResults (fixedWindowAllow limit windowMs cost) none nows)
        (runResults (fixedWindowScript limit windowMs cost) (fun _ => 0) nows)) := by
  refine ⟨?_, ?_, ?_, ?_⟩
  · intro capacity refillPerSec cost n0 nows hchain
    exact runResults_congr (tokenBucketAllow capacity refillPerSec cost)
      (tokenBucketScript capacity refillPerSec cost)
      (fun st n => ∀ s ∈ st, s.lastMs ≤ n)
      (fun st n n' h hle s hs => le_trans (h s hs) hle)
      (fun st n h =>
        ⟨(tokenBucketScript_eq_local capacity refillPerSec cost st n h).symm,
         tokenBucketAllow_last_step capacity refillPerSec cost st n h⟩)
      none n0 nows (by simp) hchain
  · intro capacity leakPerSec cost n0 nows hchain
    exact runResults_congr (leakyBucketAllow capacity leakPerSec cost)
      (leakyBucketScript capacity leakPerSec cost)
      (fun st n => ∀ s ∈ st, s.lastMs ≤ n)
      (fun st n n' h hle s hs => le_trans (h s hs) hle)
      (fun st n h =>
        ⟨(leakyBucketScript_eq_local capacity leakPerSec cost st n h).symm,
         leakyBucketAllow_last_step capacity leakPerSec cost st n h⟩)
      none n0 nows (by simp) hchain
  · intro limit windowMs cost n0 nows hn0 hchain
    exact runResults_congr (slidingWindowLogAllow limit windowMs cost)
      (slidingLogScript limit windowMs cost)
      (fun logs n => List.Pairwise (· ≤ ·) logs ∧ (∀ t ∈ logs, 0 ≤ t ∧ t ≤ n) ∧ 0 ≤ n)
      (fun logs n n' h hle =>
        ⟨h.1, fun t ht => ⟨(h.2.1 t ht).1, le_trans (h.2.1 t ht).2 hle⟩,
         le_trans h.2.2 hle⟩)
      (fun logs n h =>
        ⟨(slidingLogScript_eq_local limit windowMs cost logs n h.1 h.2.1).symm,
         (slidingWindowLogAllow_sorted_step limit windowMs cost logs n h.1 h.2.1 h.2.2).1,
         (slidingWindowLogAllow_sorted_step limit windowMs cost logs n h.1 h.2.1 h.2.2).2,
         h.2.2⟩)
      [] n0 nows ⟨List.Pairwise.nil, by simp, hn0⟩ hchain
  · intro limit windowMs cost n0 nows hl hw hc hn0 hchain
    exact runResults_rel (fixedWindowAllow limit windowMs cost)
      (fixedWindowScript limit windowMs cost)
      (fwRel limit windowMs cost)
      (fun r1 r2 => r1.allowed = r2.allowed)
      (fun s1 s2 n n' h hle => fwRel_mono limit windowMs cost s1 s2 n n' h hle)
      (fun s1 s2 n h => fixedWindow_rel_step limit windowMs cost hl hw hc s1 s2 n h)
      none (fun _ => 0) n0 nows ⟨hn0, fun _ => rfl⟩ hchain

/-- C1 witness: the amended equivalences instantiated on concrete
two-call runs. -/
theorem C1_witness :
    runResults (tokenBucketAllow 10 5 1) none [0, 100]
      = runResults (tokenBucketScript 10 5 1) none [0, 100] ∧
    runResults (leakyBucketAllow 10 5 1) none [0, 100]
      = runResults (leakyBucketScript 10 5 1) none [0, 100] ∧
    runResults (slidingWindowLogAllow 2 1000 1) [] [0, 100]
      = runResults (slidingLogScript 2 1000 1) [] [0, 100] ∧
    List.Forall₂ (fun r1 r2 => r1.allowed = r2.allowed)
      (runResults (fixedWindowAllow 1 1000 1) none [0, 0])
      (runResults (fixedWindowScript 1 1000 1) (fun _ => 0) [0, 0]) :=
  ⟨C1_amended_equivalences.1 10 5 1 0 [0, 100]
     (List.Chain.cons (by norm_num) (List.Chain.cons (by norm_num) List.Chain.nil)),
   C1_amended_equivalences.2.1 10 5 1 0 [0, 100]
     (List.Chain.cons (by norm_num) (List.Chain.cons (by norm_num) List.Chain.nil)),
   C1_amended_equivalences.2.2.1 2 1000 1 0 [0, 100] (le_refl 0)
     (List.Chain.cons (by norm_num) (List.Chain.cons (by norm_num) List.Chain.nil)),
   C1_amended_equivalences.2.2.2 1 1000 1 0 [0, 0]
     (by norm_num) (by norm_num) (by norm_num) (le_refl 0)
     (List.Chain.cons (by norm_num) (List.Chain.cons (by norm_num) List.Chain.nil))⟩

/-- C3 (amended): with each key's parameters fixed and non-decreasing
clock readings, every Result emitted by any of the five local (memory)
decision operations, and by the remote token-bucket, leaky-bucket,
sliding-log and sliding-counter scripts, has `remaining ≥ 0`.  (The
original claim over all ten operations fails only for the remote
fixed-window script, which emits negative remaining on denial — see the
counterexample.) -/
theorem C3_remaining_nonneg :
    (∀ (capacity : ℤ) (refillPerSec : ℚ) (cost : ℤ) (n0 : ℤ) (nows : List ℤ),
      0 < capacity → 0 < refillPerSec → 0 < cost → List.Chain (· ≤ ·) n0 nows →
      ∀ r ∈ runResults (tokenBucketAllow capacity refillPerSec cost) none nows,
        0 ≤ r.remaining) ∧
    (∀ (capacity : ℤ) (leakPerSec : ℚ) (cost : ℤ) (n0 : ℤ) (nows : List ℤ),
      0 < capacity → 0 < leakPerSec → 0 < cost → List.Chain (· ≤ ·) n0 nows →
      ∀ r ∈ runResults (leakyBucketAllow capacity leakPerSec cost) none nows,
        0 ≤ r.remaining) ∧
    (∀ (limit windowMs cost : ℤ) (n0 : ℤ) (nows : List ℤ),
      0 < limit → 0 < windowMs → 0 < cost → List.Chain (· ≤ ·) n0 nows →
      ∀ r ∈ runResults (fixedWindowAllow limit windowMs cost) none nows,
        0 ≤ r.remaining) ∧
    (∀ (limit windowMs cost : ℤ) (n0 : ℤ) (nows : List ℤ),
      0 < limit → 0 < windowMs → 0 < cost → List.Chain (· ≤ ·) n0 nows →
      ∀ r ∈ runResults (slidingWindowLogAllow limit windowMs cost) [] nows,
        0 ≤ r.remaining) ∧
    (∀ (limit windowMs cost : ℤ) (n0 : ℤ) (nows : List ℤ),
      0 < limit → 0 < windowMs → 0 < cost → List.Chain (· ≤ ·) n0 nows →
      ∀ r ∈ runResults (slidingWindowCounterAllow limit windowMs cost) none nows,
        0 ≤ r.remaining) ∧
    (∀ (capacity : ℤ) (refillPerSec : ℚ) (cost : ℤ) (n0 : ℤ) (nows : List ℤ),
      0 < capacity → 0 < refillPerSec → 0 < cost → List.Chain (· ≤ ·) n0 nows →
      ∀ r ∈ runResults (tokenBucketScript capacity refillPerSec cost) none nows,
        0 ≤ r.remaining) ∧
    (∀ (capacity : ℤ) (leakPerSec : ℚ) (cost : ℤ) (n0 : ℤ) (nows : List ℤ),
      0 < capacity → 0 < leakPerSec → 0 < cost → List.Chain (· ≤ ·) n0 nows →
      ∀ r ∈ runResults (leakyBucketScript capacity leakPerSec cost) none nows,
        0 ≤ r.remaining) ∧
    (∀ (limit windowMs cost : ℤ) (n0 : ℤ) (nows : List ℤ),
      0 < limit → 0 < windowMs → 0 < cost → List.Chain (· ≤ ·) n0 nows →
      ∀ r ∈ runResults (slidingLogScript limit windowMs cost) [] nows,
        0 ≤ r.remaining) ∧
    (∀ (limit windowMs cost : ℤ) (n0 : ℤ) (nows : List ℤ),
      0 < limit → 0 < windowMs → 0 < cost → List.Chain (· ≤ ·) n0 nows →
      ∀ r ∈ runResults (slidingCounterScript limit windowMs cost) (fun _ => 0) nows,
        0 ≤ r.remaining) := by
  refine ⟨?_, ?_, ?_, ?_, ?_, ?_, ?_, ?_, ?_⟩
  · intro capacity refillPerSec cost n0 nows hcap href hcost hchain r hr
    exact runResults_forall (tokenBucketAllow capacity refillPerSec cost)
      (fun st n => ∀ s ∈ st, 0 ≤ s.tokens ∧ s.lastMs ≤ n)
      (fun r => 0 ≤ r.remaining)
      (fun st n n' h hle s hs => ⟨(h s hs).1, le_trans (h s hs).2 hle⟩)
      (fun st n h => tokenBucketAllow_remaining_step capacity refillPerSec cost
        hcap href hcost st n h)
      none n0 nows (by simp) hchain r hr
  · intro capacity leakPerSec cost n0 nows hcap hleak hcost hchain r hr
    exact runResults_forall (leakyBucketAllow capacity leakPerSec cost)
      (fun st n => ∀ s ∈ st, 0 ≤ s.water ∧ s.water ≤ (capacity : ℚ) ∧ s.lastMs ≤ n)
      (fun r => 0 ≤ r.remaining)
      (fun st n n' h hle s hs =>
        ⟨(h s hs).1, (h s hs).2.1, le_trans (h s hs).2.2 hle⟩)
      (fun st n h => leakyBucketAllow_remaining_step capacity leakPerSec cost
        hcap hleak hcost st n h)
      none n0 nows (by simp) hchain r hr
  · intro limit windowMs cost n0 nows hl hw hc hchain r hr
    exact runResults_forall (fixedWindowAllow limit windowMs cost)
      (fun st n => ∀ s ∈ st, 0 ≤ s.count ∧ s.count ≤ limit)
      (fun r => 0 ≤ r.remaining)
      (fun st n n' h _ => h)
      (fun st n h => fixedWindowAllow_remaining_step limit windowMs cost hl hw hc st n h)
      none n0 nows (by simp) hchain r hr
  · intro limit windowMs cost n0 nows hl hw hc hchain r hr
    exact runResults_forall (slidingWindowLogAllow limit windowMs cost)
      (fun logs n => (logs.length : ℤ) ≤ limit)
      (fun r => 0 ≤ r.remaining)
      (fun logs n n' h _ => h)
      (fun logs n h => slidingWindowLogAllow_remaining_step limit windowMs cost
        hl hw hc logs n h)
      [] n0 nows (by simpa using hl.le) hchain r hr
  · intro limit windowMs cost n0 nows hl hw hc hchain r hr
    exact runResults_forall (slidingWindowCounterAllow limit windowMs cost)
      (fun _ _ => True)
      (fun r => 0 ≤ r.remaining)
      (fun _ _ _ _ _ => trivial)
      (fun st n _ =>
        ⟨slidingWindowCounterAllow_remaining_step limit windowMs cost hl hw hc st n,
         trivial⟩)
      none n0 nows trivial hchain r hr
  · intro capacity refillPerSec cost n0 nows hcap href hcost hchain r hr
    exact runResults_forall (tokenBucketScript capacity refillPerSec cost)
      (fun st n => ∀ s ∈ st, 0 ≤ s.tokens ∧ s.lastMs ≤ n)
      (fun r => 0 ≤ r.remaining)
      (fun st n n' h hle s hs => ⟨(h s hs).1, le_trans (h s hs).2 hle⟩)
      (fun st n h => tokenBucketScript_remaining_step capacity refillPerSec cost
        hcap href hcost st n h)
      none n0 nows (by simp) hchain r hr
  · intro capacity leakPerSec cost n0 nows hcap hleak hcost hchain r hr
    exact runResults_forall (leakyBucketScript capacity leakPerSec cost)
      (fun st n => ∀ s ∈ st, 0 ≤ s.water ∧ s.water ≤ (capacity : ℚ) ∧ s.lastMs ≤ n)
      (fun r => 0 ≤ r.remaining)
      (fun st n n' h hle s hs =>
        ⟨(h s hs).1, (h s hs).2.1, le_trans (h s hs).2.2 hle⟩)
      (fun st n h => leakyBucketScript_remaining_step capacity leakPerSec cost
        hcap hleak hcost st n h)
      none n0 nows (by simp) hchain r hr
  · intro limit windowMs cost n0 nows hl hw hc hchain r hr
    exact runResults_forall (slidingLogScript limit windowMs cost)
      (fun scores n => (scores.length : ℤ) ≤ limit)
      (fun r => 0 ≤ r.remaining)
      (fun scores n n' h _ => h)
      (fun scores n h => slidingLogScript_remaining_step limit windowMs cost
        hl hw hc scores n h)
      [] n0 nows (by simpa using hl.le) hchain r hr
  · intro limit windowMs cost n0 nows hl hw hc hchain r hr
    refine runResults_forall (slidingCounterScript limit windowMs cost)
      (scInv limit windowMs)
      (fun r => 0 ≤ r.remaining)
      (fun store n n' h hle => scInv_mono limit windowMs hw store n n' h hle)
      (fun store n h => slidingCounterScript_remaining_step limit windowMs cost
        hl hw hc store n h)
      (fun _ => 0) n0 nows ?_ hchain r hr
    refine ⟨fun j => le_refl 0, fun j => hl.le, n0 - n0 % windowMs,
      ⟨n0 / windowMs, by rw [Int.emod_def]; ring⟩, le_refl _, fun j hj => rfl, fun _ => ?_⟩
    push_cast
    simpa using (by exact_mod_cast hl.le : (0 : ℚ) ≤ (limit : ℚ))

/-- C3 witness: the amended invariant instantiated on concrete two-call
runs of each of the nine covered operations. -/
theorem C3_witness :
    (∀ r ∈ runResults (tokenBucketAllow 10 5 1) none [0, 100], 0 ≤ r.remaining) ∧
    (∀ r ∈ runResults (leakyBucketAllow 10 5 1) none [0, 100], 0 ≤ r.remaining) ∧
    (∀ r ∈ runResults (fixedWindowAllow 2 1000 1) none [0, 100], 0 ≤ r.remaining) ∧
    (∀ r ∈ runResults (slidingWindowLogAllow 2 1000 1) [] [0, 100], 0 ≤ r.remaining) ∧
    (∀ r ∈ runResults (slidingWindowCounterAllow 2 1000 1) none [0, 100], 0 ≤ r.remaining) ∧
    (∀ r ∈ runResults (tokenBucketScript 10 5 1) none [0, 100], 0 ≤ r.remaining) ∧
    (∀ r ∈ runResults (leakyBucketScript 10 5 1) none [0, 100], 0 ≤ r.remaining) ∧
    (∀ r ∈ runResults (slidingLogScript 2 1000 1) [] [0, 100], 0 ≤ r.remaining) ∧
    (∀ r ∈ runResults (slidingCounterScript 2 1000 1) (fun _ => 0) [0, 100],
      0 ≤ r.remaining) :=
  ⟨C3_remaining_nonneg.1 10 5 1 0 [0, 100]
     (by norm_num) (by norm_num) (by norm_num)
     (List.Chain.cons (by norm_num) (List.Chain.cons (by norm_num) List.Chain.nil)),
   C3_remaining_nonneg.2.1 10 5 1 0 [0, 100]
     (by norm_num) (by norm_num) (by norm_num)
     (List.Chain.cons (by norm_num) (List.Chain.cons (by norm_num) List.Chain.nil)),
   C3_remaining_nonneg.2.2.1 2 1000 1 0 [0, 100]
     (by norm_num) (by norm_num) (by norm_num)
     (List.Chain.cons (by norm_num) (List.Chain.cons (by norm_num) List.Chain.nil)),
   C3_remaining_nonneg.2.2.2.1 2 1000 1 0 [0, 100]
     (by norm_num) (by norm_num) (by norm_num)
     (List.Chain.cons (by norm_num) (List.Chain.cons (by norm_num) List.Chain.nil)),
   C3_remaining_nonneg.2.2.2.2.1 2 1000 1 0 [0, 100]
     (by norm_num) (by norm_num) (by norm_num)
     (List.Chain.cons (by norm_num) (List.Chain.cons (by norm_num) List.Chain.nil)),
   C3_remaining_nonneg.2.2.2.2.2.1 10 5 1 0 [0, 100]
     (by norm_num) (by norm_num) (by norm_num)
     (List.Chain.cons (by norm_num) (List.Chain.cons (by norm_num) List.Chain.nil)),
   C3_remaining_nonneg.2.2.2.2.2.2.1 10 5 1 0 [0, 100]
     (by norm_num) (by norm_num) (by norm_num)
     (List.Chain.cons (by norm_num) (List.Chain.cons (by norm_num) List.Chain.nil)),
   C3_remaining_nonneg.2.2.2.2.2.2.2.1 2 1000 1 0 [0, 100]
     (by norm_num) (by norm_num) (by norm_num)
     (List.Chain.cons (by norm_num) (List.Chain.cons (by norm_num) List.Chain.nil)),
   C3_remaining_nonneg.2.2.2.2.2.2.2.2 2 1000 1 0 [0, 100]
     (by norm_num) (by norm_num) (by norm_num)
     (List.Chain.cons (by norm_num) (List.Chain.cons (by norm_num) List.Chain.nil))⟩

/-- C9: when a request carries no key, the validator derives one by the
first match in the precedence order user then device then jwt (the jwt
taken from the Authorization Bearer header when the body omits it), and
rejects with the 400 code `key_and_algorithm_required` when no
identifier matches. -/
theorem C9_key_derivation (hexSha256 : String → String) (req : CheckRequest)
    (authHeader : String) (ms : MemoryState) (nowMs : ℤ)
    (hkey : goTrimSpace req.key = "") :
    effectiveKey hexSha256 req authHeader = specDerivedKey hexSha256 req authHeader ∧
    (effectiveKey hexSha256 req authHeader = "" →
      handlerCheck hexSha256 req authHeader ms nowMs
        = (.badRequest "key_and_algorithm_required", ms)) := by
  constructor
  · unfold effectiveKey specDerivedKey buildKey
    rw [if_pos hkey]
  · intro hempty
    simp only [handlerCheck]
    rw [if_pos (Or.inl hempty)]

/-- C9 witness: a keyless request with `user_id = " u1 "` and a device id
derives `user:u1` on both the code path and the spec's rule, and a
request with no identifiers at all is rejected with
`key_and_algorithm_required`. -/
theorem C9_witness :
    effectiveKey (fun _ => "H") ⟨"", " u1 ", "d", "", "fixed_window", 10, 1000, 0, 0, 0, 1⟩ ""
      = specDerivedKey (fun _ => "H") ⟨"", " u1 ", "d", "", "fixed_window", 10, 1000, 0, 0, 0, 1⟩ "" ∧
    specDerivedKey (fun _ => "H") ⟨"", " u1 ", "d", "", "fixed_window", 10, 1000, 0, 0, 0, 1⟩ ""
      = "user:u1" ∧
    handlerCheck (fun _ => "H") ⟨"", "", "", "", "fixed_window", 10, 1000, 0, 0, 0, 1⟩ ""
        initialMemory 0
      = (.badRequest "key_and_algorithm_required", initialMemory) := by
  refine ⟨?_, ?_, ?_⟩
  · exact (C9_key_derivation (fun _ => "H")
      ⟨"", " u1 ", "d", "", "fixed_window", 10, 1000, 0, 0, 0, 1⟩ "" initialMemory 0
      (by decide)).1
  · decide
  · exact (C9_key_derivation (fun _ => "H")
      ⟨"", "", "", "", "fixed_window", 10, 1000, 0, 0, 0, 1⟩ "" initialMemory 0
      (by decide)).2 (by decide)

/-- C10: a strictly negative cost is not rejected by the validator (only
`cost = 0` is defaulted to 1); it reaches the backend guard, which
returns the zero Result without error, so the HTTP reply is a 429
decision with `allowed = false` and all numeric fields zero, rather than
a 400. -/
theorem C10_negative_cost_yields_429_zero (hexSha256 : String → String)
    (ms : MemoryState) (nowMs cost : ℤ) (hcost : cost < 0) :
    (handlerCheck hexSha256 ⟨"k", "", "", "", "token_bucket", 0, 0, 10, 5, 0, cost⟩ "" ms nowMs).1
      = .decision 429 ⟨"k", "token_bucket", false, 0, 0, 0, 0, 0⟩ := by
  have hkey : effectiveKey hexSha256 ⟨"k", "", "", "", "token_bucket", 0, 0, 10, 5, 0, cost⟩ ""
      = "k" := by
    unfold effectiveKey
    rw [show (CheckRequest.mk "k" "" "" "" "token_bucket" 0 0 10 5 0 cost).key = "k" from rfl]
    rw [if_neg (by decide : ¬ goTrimSpace "k" = "")]
    decide
  have halg : goToLower (goTrimSpace "token_bucket") = "token_bucket" := by decide
  have hc0 : cost ≠ 0 := by omega
  have hpar : ¬ ((5 : ℚ) ≤ 0) := by norm_num
  have hg := tokenBucketAllow_guard 10 5 cost (ms.tokenBuckets "k") nowMs
    (Or.inr (Or.inr (le_of_lt hcost)))
  simp only [handlerCheck, hkey, halg]
  rw [if_neg (by decide : ¬(("k" : String) = "" ∨ ("token_bucket" : String) = ""))]
  simp [hc0, hpar, hg, zeroResult]

/-- C10 witness: a concrete request with `cost = −1` on a fresh memory
backend produces status 429 with the zero body. -/
theorem C10_witness :
    (handlerCheck (fun _ => "H") ⟨"k", "", "", "", "token_bucket", 0, 0, 10, 5, 0, -1⟩ ""
        initialMemory 0).1
      = .decision 429 ⟨"k", "token_bucket", false, 0, 0, 0, 0, 0⟩ :=
  C10_negative_cost_yields_429_zero (fun _ => "H") initialMemory 0 (-1) (by norm_num)

end RateLimiter
